import Mathlib

/-!
Shallow embedding of the EulerPC predictor-corrector IRC integrator
(`pysisyphus/irc/EulerPC.py`) and proofs about its specification.

Vectors in mass-weighted coordinate space are modelled as `Fin n → ℝ`;
`np.linalg.norm` becomes the Euclidean norm `npNorm`.  Collaborators whose
code is not part of the sources (the DWI interpolator, the calculator, the
Hessian-update rules and the history bookkeeping of the `IRC` base class)
enter as oracle parameters, as the spec treats them as black boxes.
-/

namespace PysisEulerPC

noncomputable section

/-- Coordinate / gradient vectors (flat `np.ndarray` of length `n`). -/
abbrev Vec (n : ℕ) : Type := Fin n → ℝ

/-- `np.linalg.norm`: the Euclidean norm of a vector. -/
def npNorm {n : ℕ} (v : Vec n) : ℝ := Real.sqrt (∑ i, v i ^ 2)

/-- Modelled from the spec: `unweight_vec` of the `IRC` base class (file not
in the sources); section 4.1 of the spec: elementwise division by the
per-coordinate square roots of the masses. -/
def unweight_vec {n : ℕ} (m_sqrt : Vec n) (v : Vec n) : Vec n :=
  fun i => v i / m_sqrt i

/-- Modelled from the spec: `rms` from `pysisyphus.helpers` (file not in the
sources): the root-mean-square of the entries of a vector. -/
def rms {n : ℕ} (v : Vec n) : ℝ := Real.sqrt ((∑ i, v i ^ 2) / n)

/-- `get_integration_length_func`: length of the integration path done in
mass-weighted coordinates, measured in un-mass-weighted coordinates
(EulerPC.py lines 62-67). -/
def get_integration_length {n : ℕ} (m_sqrt init cur : Vec n) : ℝ :=
  npNorm (unweight_vec m_sqrt (fun i => cur i - init i))

/-- RMS difference of two vectors: `np.sqrt(np.mean((a - b)**2))`
(EulerPC.py line 255). -/
def rmsDiff {n : ℕ} (a b : Vec n) : ℝ :=
  Real.sqrt ((∑ i, (a i - b i) ^ 2) / n)

section NormLemmas

variable {n : ℕ}

/-- `npNorm` agrees with the `EuclideanSpace` norm. -/
theorem npNorm_eq_norm (v : Vec n) :
    npNorm v = ‖(WithLp.equiv 2 (Fin n → ℝ)).symm (fun i => v i)‖ := by
  rw [EuclideanSpace.norm_eq]
  simp [npNorm, Real.norm_eq_abs, sq_abs]

theorem npNorm_nonneg (v : Vec n) : 0 ≤ npNorm v := Real.sqrt_nonneg _

theorem npNorm_zero : npNorm (0 : Vec n) = 0 := by
  simp [npNorm]

theorem npNorm_eq_zero_iff {v : Vec n} : npNorm v = 0 ↔ v = 0 := by
  rw [npNorm_eq_norm, norm_eq_zero]
  constructor
  · intro h
    funext i
    have := congrFun h i
    simpa [EuclideanSpace.equiv, Zero.zero] using this
  · intro h
    subst h
    rfl

/-- Pulling a scalar multiple out of `npNorm`. -/
theorem npNorm_smul (c : ℝ) (v : Vec n) :
    npNorm (fun i => c * v i) = |c| * npNorm v := by
  unfold npNorm
  have h1 : ∀ i : Fin n, (c * v i) ^ 2 = c ^ 2 * v i ^ 2 := by
    intro i; ring
  simp only [h1]
  rw [← Finset.mul_sum, Real.sqrt_mul (sq_nonneg c), Real.sqrt_sq_eq_abs]

/-- Reverse-triangle style bound: adding a step changes the norm by at most
the norm of the step. -/
theorem npNorm_add_le_abs (a s : Vec n) :
    |npNorm (fun i => a i + s i) - npNorm a| ≤ npNorm s := by
  rw [npNorm_eq_norm (fun i => a i + s i), npNorm_eq_norm a, npNorm_eq_norm s]
  have h := abs_norm_sub_norm_le
    ((WithLp.equiv 2 (Fin n → ℝ)).symm (fun i => a i + s i))
    ((WithLp.equiv 2 (Fin n → ℝ)).symm (fun i => a i))
  have he : (WithLp.equiv 2 (Fin n → ℝ)).symm (fun i => a i + s i) -
      (WithLp.equiv 2 (Fin n → ℝ)).symm (fun i => a i) =
      (WithLp.equiv 2 (Fin n → ℝ)).symm (fun i => s i) := by
    funext i
    show (a i + s i) - a i = s i
    ring
  rw [he] at h
  exact h

theorem npNorm_normalized_step (h : ℝ) {g : Vec n} (hg : g ≠ 0) :
    npNorm (fun i => h * -g i / npNorm g) = |h| := by
  have hgn : npNorm g ≠ 0 := fun hc => hg (npNorm_eq_zero_iff.mp hc)
  have h1 : ∀ i : Fin n, h * -g i / npNorm g = (h / npNorm g) * -g i := by
    intro i; ring
  simp only [h1]
  have h2 : npNorm (fun i => (h / npNorm g) * -g i)
      = |h / npNorm g| * npNorm (fun i => -g i) := npNorm_smul _ _
  have h3 : npNorm (fun i => -g i) = npNorm g := by
    unfold npNorm
    congr 1
    apply Finset.sum_congr rfl
    intro i _
    ring
  rw [h2, h3, abs_div]
  rw [abs_of_nonneg (npNorm_nonneg g)]
  field_simp

/-- Even with a vanishing gradient the (Lean-valued) normalized step has norm
at most `|h|` (division by zero yields the zero vector). -/
theorem npNorm_normalized_step_le (h : ℝ) (g : Vec n) :
    npNorm (fun i => h * -g i / npNorm g) ≤ |h| := by
  by_cases hg : g = 0
  · subst hg
    have h0 : (fun i : Fin n => h * -(0 : Vec n) i / npNorm (0 : Vec n)) = (0 : Vec n) := by
      funext i
      simp
    rw [h0, npNorm_zero]
    exact abs_nonneg h
  · rw [npNorm_normalized_step h hg]

/-- Unweighting by masses bounded below by `μ > 0` shrinks norms by at most
the factor `1/μ`. -/
theorem npNorm_unweight_le {m_sqrt v : Vec n} {μ : ℝ} (hμ : 0 < μ)
    (hm : ∀ i, μ ≤ m_sqrt i) : npNorm (unweight_vec m_sqrt v) ≤ npNorm v / μ := by
  unfold npNorm unweight_vec
  have hsum : (∑ i, (v i / m_sqrt i) ^ 2) ≤ (∑ i, v i ^ 2) / μ ^ 2 := by
    rw [Finset.sum_div]
    apply Finset.sum_le_sum
    intro i _
    rw [div_pow]
    apply div_le_div_of_nonneg_left (sq_nonneg _) (by positivity)
    have := hm i
    nlinarith
  calc Real.sqrt (∑ i, (v i / m_sqrt i) ^ 2)
      ≤ Real.sqrt ((∑ i, v i ^ 2) / μ ^ 2) := Real.sqrt_le_sqrt hsum
    _ = Real.sqrt (∑ i, v i ^ 2) / μ := by
        rw [Real.sqrt_div (by positivity), Real.sqrt_sq hμ.le]

end NormLemmas

/-! ## Corrector integrator (EulerPC.py lines 197-264) -/

/-- Context of one corrector invocation.  The distance weighted interpolator
`dwi` is not part of the sources; its `interpolate(·, gradient=True)` query is
the oracle `dwiGrad`, as the corrector only consumes the returned gradient. -/
structure CorrCtx (n : ℕ) where
  m_sqrt : Vec n
  dwiGrad : Vec n → Vec n
  step_length : ℝ

/-- One corrector micro-step:
`cur_coords += corr_step_length * -gradient/np.linalg.norm(gradient)`
(EulerPC.py line 226). -/
def corrMicroStep {n : ℕ} (gradient : Vec n) (csl : ℝ) (cur : Vec n) : Vec n :=
  fun i => cur i + csl * -gradient i / npNorm gradient

/-- Result of the inner `while True` marching loop of one refinement level.
`kcoords` is the Python list `k_coords` at the moment the loop is left.
`fuelOut` models non-termination of the unbounded Python loop. -/
inductive MarchRes (n : ℕ) where
  | done (endp : Vec n) (kcoords : List (Vec n))
  | osc (prev : Vec n) (kcoords : List (Vec n))
  | fuelOut (kcoords : List (Vec n))

/-- The inner marching loop of one refinement level (EulerPC.py lines
218-242).  Each iteration appends `cur` to `k_coords`, leaves the loop once
the accumulated integration length is within half a step of the target,
otherwise steps along the interpolated gradient and aborts with the
second-to-last recorded point if the new point is within `csl` of it.
The `kcoords` argument holds the recorded points of previous iterations, so
the Python `k_coords[-2]` is its last element. -/
def march {n : ℕ} (ctx : CorrCtx n) (init : Vec n) (csl : ℝ) :
    ℕ → Vec n → ℝ → List (Vec n) → MarchRes n
  | 0, _, _, kcoords => .fuelOut kcoords
  | fuel + 1, cur, curLen, kcoords =>
    if |ctx.step_length - curLen| < 0.5 * csl then .done cur (kcoords ++ [cur])
    else
      let gradient := ctx.dwiGrad cur
      let cur' := corrMicroStep gradient csl cur
      let curLen' := get_integration_length ctx.m_sqrt init cur'
      match kcoords.getLast? with
      | some prev =>
        if npNorm (fun i => cur' i - prev i) ≤ csl then .osc prev (kcoords ++ [cur])
        else march ctx init csl fuel cur' curLen' (kcoords ++ [cur])
      | none => march ctx init csl fuel cur' curLen' (kcoords ++ [cur])

/-- The Richardson table: the Python dict `richardson`, keyed by
`(refinement level k, extrapolation order j)`.  New entries are prepended;
keys are never inserted twice during a corrector run. -/
abbrev RichTable (n : ℕ) : Type := List ((ℕ × ℕ) × Vec n)

/-- Dictionary lookup in the Richardson table. -/
def rlookup {n : ℕ} : RichTable n → ℕ × ℕ → Option (Vec n)
  | [], _ => none
  | kv :: d, key => if kv.1 = key then some kv.2 else rlookup d key

/-- Total lookup (the Python dict access on a key known to be present). -/
def rget {n : ℕ} (d : RichTable n) (key : ℕ × ℕ) : Vec n :=
  (rlookup d key).getD 0

/-- The Richardson extrapolation loop
`for j in range(1, k+1): richardson[(k, j)] = ((2**j) * richardson[(k, j-1)]
- richardson[(k-1, j-1)]) / (2**j-1)` (EulerPC.py lines 247-249), with the
counter argument `J` running the body for `j = 1..J`. -/
def fillRow {n : ℕ} (k : ℕ) : ℕ → RichTable n → RichTable n
  | 0, d => d
  | j + 1, d =>
    ((k, j + 1),
      fun i => ((2 : ℝ) ^ (j + 1) * rget (fillRow k j d) (k, j) i
        - rget (fillRow k j d) (k - 1, j) i)
        / ((2 : ℝ) ^ (j + 1) - 1)) :: fillRow k j d

/-- Outcome of a corrector invocation.  `okConv k v table` is the return of
`richardson[(k,k)]` after the convergence check succeeded, `okOsc v table`
the early return of the second-to-last point on detected oscillation, and
`raised table` the `Exception("Richardson did not converge!")`.  The table
and the level `k` are exposed because the code reports them (log lines and
the raised exception). -/
inductive CorrRes (n : ℕ) where
  | okConv (k : ℕ) (point : Vec n) (table : RichTable n)
  | okOsc (point : Vec n) (table : RichTable n)
  | raised (table : RichTable n)
  | fuelOut (table : RichTable n)

/-- The table left behind by a corrector invocation. -/
def tableOf {n : ℕ} : CorrRes n → RichTable n
  | .okConv _ _ t => t
  | .okOsc _ t => t
  | .raised t => t
  | .fuelOut t => t

/-- The per-step size of refinement level `k`:
`corr_step_length = step_length / (points - 1)` with `points = 20*(2**k)`
(EulerPC.py lines 211-212). -/
def cslOf (step_length : ℝ) (k : ℕ) : ℝ := step_length / (20 * 2 ^ k - 1)

/-- The outer refinement loop `for k in range(15)` of `corrector_step`
(EulerPC.py lines 210-264): `rem` counts the remaining levels, `k` the
current one, `d` is the Richardson table built so far.  Running out of
levels raises; oscillation inside a level returns its second-to-last point;
otherwise the level endpoint is stored at `(k, 0)`, the row is extrapolated,
and for `k > 0` the run stops once the RMS difference of the last two
entries of the current row is at most `1e-5`. -/
def corrGo {n : ℕ} (ctx : CorrCtx n) (init : Vec n) (marchFuel : ℕ) :
    ℕ → ℕ → RichTable n → CorrRes n
  | 0, _, d => .raised d
  | rem + 1, k, d =>
    match march ctx init (cslOf ctx.step_length k) marchFuel init 0 [] with
    | .fuelOut _ => .fuelOut d
    | .osc prev _ => .okOsc prev d
    | .done endp _ =>
      let d2 := fillRow k k (((k, 0), endp) :: d)
      if 0 < k then
        if rmsDiff (rget d2 (k, k)) (rget d2 (k, k - 1)) ≤ 1e-5 then
          .okConv k (rget d2 (k, k)) d2
        else corrGo ctx init marchFuel rem (k + 1) d2
      else corrGo ctx init marchFuel rem (k + 1) d2

/-- `corrector_step` (EulerPC.py lines 197-264), as a function of the oracle
context, the macro-step start point and the fuel bound for the unbounded
inner loops. -/
def corrector_step {n : ℕ} (ctx : CorrCtx n) (init : Vec n) (marchFuel : ℕ) :
    CorrRes n :=
  corrGo ctx init marchFuel 15 0 []

/-- The point handed back to the caller, when one is. -/
def pointOf {n : ℕ} : CorrRes n → Option (Vec n)
  | .okConv _ v _ => some v
  | .okOsc v _ => some v
  | .raised _ => none
  | .fuelOut _ => none

/-- Whether a corrector outcome is the oscillation-guard early return. -/
def isOscAbort {n : ℕ} : CorrRes n → Bool
  | .okOsc _ _ => true
  | _ => false

/-! ### Dictionary lemmas for the Richardson table -/

section TableLemmas

variable {n : ℕ}

theorem rlookup_cons_self (d : RichTable n) (key : ℕ × ℕ) (v : Vec n) :
    rlookup ((key, v) :: d) key = some v := by
  simp [rlookup]

theorem rlookup_cons_ne {key' key : ℕ × ℕ} (d : RichTable n) (v : Vec n)
    (h : key' ≠ key) : rlookup ((key', v) :: d) key = rlookup d key := by
  simp [rlookup, h]

theorem rlookup_mem {d : RichTable n} {key : ℕ × ℕ} {v : Vec n}
    (h : rlookup d key = some v) : (key, v) ∈ d := by
  induction d with
  | nil => simp [rlookup] at h
  | cons kv d ih =>
    obtain ⟨k1, v1⟩ := kv
    by_cases hk : k1 = key
    · subst hk
      rw [rlookup_cons_self] at h
      rw [Option.some_inj] at h
      subst h
      exact List.mem_cons_self _ _
    · rw [rlookup_cons_ne _ _ hk] at h
      exact List.mem_cons_of_mem _ (ih h)

theorem mem_fillRow {k J : ℕ} {d : RichTable n} {p : (ℕ × ℕ) × Vec n}
    (h : p ∈ fillRow k J d) : p ∈ d ∨ ∃ b, 1 ≤ b ∧ b ≤ J ∧ p.1 = (k, b) := by
  induction J with
  | zero => exact Or.inl h
  | succ J ih =>
    rw [fillRow] at h
    rcases List.mem_cons.mp h with h | h
    · exact Or.inr ⟨J + 1, Nat.succ_le_succ (Nat.zero_le J), le_refl _, by rw [h]⟩
    · rcases ih h with h | ⟨b, hb1, hbJ, hbk⟩
      · exact Or.inl h
      · exact Or.inr ⟨b, hb1, Nat.le_succ_of_le hbJ, hbk⟩

theorem rlookup_fillRow_of_ne {k J : ℕ} {d : RichTable n} {key : ℕ × ℕ}
    (h : ∀ b, 1 ≤ b → b ≤ J → key ≠ (k, b)) :
    rlookup (fillRow k J d) key = rlookup d key := by
  induction J with
  | zero => rfl
  | succ J ih =>
    rw [fillRow]
    rw [rlookup_cons_ne _ _ (Ne.symm (h (J + 1) (Nat.succ_le_succ (Nat.zero_le J)) (le_refl _)))]
    exact ih fun b hb1 hbJ => h b hb1 (Nat.le_succ_of_le hbJ)

theorem rlookup_fillRow_self {k J b : ℕ} {d : RichTable n} (hb1 : 1 ≤ b) (hbJ : b ≤ J) :
    rlookup (fillRow k J d) (k, b) =
      some (fun i => ((2 : ℝ) ^ b * rget (fillRow k (b - 1) d) (k, b - 1) i
        - rget (fillRow k (b - 1) d) (k - 1, b - 1) i) / ((2 : ℝ) ^ b - 1)) := by
  induction J with
  | zero => omega
  | succ J ih =>
    rcases Nat.lt_or_ge b (J + 1) with hlt | hge
    · rw [fillRow]
      rw [rlookup_cons_ne _ _ (by simp; omega)]
      exact ih (by omega)
    · have hb : b = J + 1 := le_antisymm hbJ hge
      subst hb
      rw [fillRow, rlookup_cons_self]
      simp

end TableLemmas

/-! ### The corrector loop invariant -/

/-- Structural facts maintained by the corrector about its Richardson table
after processing refinement levels `0 .. k-1`. -/
structure CorrCore {n : ℕ} (ctx : CorrCtx n) (init : Vec n) (marchFuel : ℕ)
    (k : ℕ) (d : RichTable n) : Prop where
  keys : ∀ p ∈ d, p.1.2 ≤ p.1.1 ∧ p.1.1 < k
  present : ∀ a b, a < k → b ≤ a → (rlookup d (a, b)).isSome = true
  endp : ∀ a e, rlookup d (a, 0) = some e →
    ∃ kc, march ctx init (cslOf ctx.step_length a) marchFuel init 0 [] = .done e kc
  recur : ∀ a b v, 1 ≤ b → rlookup d (a, b) = some v →
    ∃ x y, rlookup d (a, b - 1) = some x ∧ rlookup d (a - 1, b - 1) = some y ∧
      v = fun i => ((2 : ℝ) ^ b * x i - y i) / ((2 : ℝ) ^ b - 1)

/-- All convergence errors seen at levels before `k` were above the
tolerance. -/
def ErrsAbove {n : ℕ} (k : ℕ) (d : RichTable n) : Prop :=
  ∀ a, 1 ≤ a → a < k → 1e-5 < rmsDiff (rget d (a, a)) (rget d (a, a - 1))

theorem corrCore_nil {n : ℕ} (ctx : CorrCtx n) (init : Vec n) (marchFuel : ℕ) :
    CorrCore ctx init marchFuel 0 [] := by
  refine ⟨?_, ?_, ?_, ?_⟩
  · intro p hp; simp at hp
  · intro a b ha _; omega
  · intro a e he; simp [rlookup] at he
  · intro a b v _ hv; simp [rlookup] at hv

theorem errsAbove_nil {n : ℕ} : ErrsAbove 0 ([] : RichTable n) := by
  intro a _ ha; omega

section LevelLemmas

variable {n : ℕ}

theorem rlookup_isSome_rget {d : RichTable n} {key : ℕ × ℕ}
    (h : (rlookup d key).isSome = true) : rlookup d key = some (rget d key) := by
  unfold rget
  cases hc : rlookup d key with
  | none => rw [hc] at h; simp at h
  | some w => simp [hc]

/-- The level-`k` endpoint is stored at `(k, 0)` and survives the row
extrapolation. -/
theorem rlookup_level_zero {k : ℕ} {d : RichTable n} {e : Vec n} :
    rlookup (fillRow k k (((k, 0), e) :: d)) (k, 0) = some e := by
  rw [rlookup_fillRow_of_ne (fun b hb1 _ => by simp; omega)]
  exact rlookup_cons_self _ _ _

/-- Keys of other refinement levels are untouched by processing level `k`. -/
theorem rlookup_level_stable {k : ℕ} {d : RichTable n} {e : Vec n} {key : ℕ × ℕ}
    (hk : key.1 ≠ k) :
    rlookup (fillRow k k (((k, 0), e) :: d)) key = rlookup d key := by
  rw [rlookup_fillRow_of_ne (fun b _ _ hcon => hk (by rw [hcon]))]
  exact rlookup_cons_ne _ _ (fun hcon => hk (by rw [← hcon]))

/-- Every entry `(k, b)` of the freshly extrapolated row satisfies the
Richardson recurrence with respect to the final table of the level. -/
theorem rlookup_level_entry {k b : ℕ} {d : RichTable n} {e : Vec n}
    (hb1 : 1 ≤ b) (hbk : b ≤ k) :
    rlookup (fillRow k k (((k, 0), e) :: d)) (k, b) =
      some (fun i => ((2 : ℝ) ^ b * rget (fillRow k k (((k, 0), e) :: d)) (k, b - 1) i
        - rget (fillRow k k (((k, 0), e) :: d)) (k - 1, b - 1) i) / ((2 : ℝ) ^ b - 1)) := by
  have hk1 : 1 ≤ k := le_trans hb1 hbk
  have hA : rget (fillRow k (b - 1) (((k, 0), e) :: d)) (k, b - 1)
      = rget (fillRow k k (((k, 0), e) :: d)) (k, b - 1) := by
    rcases Nat.eq_zero_or_pos (b - 1) with h0 | hpos
    · rw [h0]
      unfold rget
      rw [rlookup_level_zero]
      rw [show fillRow k 0 (((k, 0), e) :: d) = ((k, 0), e) :: d from rfl]
      rw [rlookup_cons_self]
    · unfold rget
      rw [rlookup_fillRow_self hpos (le_refl _), rlookup_fillRow_self hpos (by omega)]
  have hB : rget (fillRow k (b - 1) (((k, 0), e) :: d)) (k - 1, b - 1)
      = rget (fillRow k k (((k, 0), e) :: d)) (k - 1, b - 1) := by
    unfold rget
    rw [rlookup_fillRow_of_ne (fun c hc1 _ => by simp; omega),
      rlookup_fillRow_of_ne (fun c hc1 _ => by simp; omega)]
  rw [rlookup_fillRow_self hb1 hbk, hA, hB]

/-- Presence of the whole row `k` after processing level `k`. -/
theorem rlookup_level_isSome {k b : ℕ} {d : RichTable n} {e : Vec n} (hbk : b ≤ k) :
    (rlookup (fillRow k k (((k, 0), e) :: d)) (k, b)).isSome = true := by
  rcases Nat.eq_zero_or_pos b with h0 | hpos
  · rw [h0, rlookup_level_zero]; rfl
  · rw [rlookup_level_entry hpos hbk]; rfl

/-- Processing one refinement level preserves the structural invariant. -/
theorem corrCore_step {ctx : CorrCtx n} {init : Vec n} {marchFuel : ℕ}
    {k : ℕ} {d : RichTable n} {e : Vec n} {kc : List (Vec n)}
    (core : CorrCore ctx init marchFuel k d)
    (hm : march ctx init (cslOf ctx.step_length k) marchFuel init 0 [] = .done e kc) :
    CorrCore ctx init marchFuel (k + 1) (fillRow k k (((k, 0), e) :: d)) := by
  refine ⟨?_, ?_, ?_, ?_⟩
  · intro p hp
    rcases mem_fillRow hp with hp | ⟨b, hb1, hbk, hbp⟩
    · rcases List.mem_cons.mp hp with hp | hp
      · rw [hp]; exact ⟨Nat.zero_le _, Nat.lt_succ_of_le (le_refl _)⟩
      · exact ⟨(core.keys p hp).1, Nat.lt_succ_of_lt (core.keys p hp).2⟩
    · rw [hbp]; exact ⟨hbk, Nat.lt_succ_self k⟩
  · intro a b ha hb
    rcases Nat.lt_succ_iff_lt_or_eq.mp ha with ha | ha
    · rw [rlookup_level_stable (by omega)]
      exact core.present a b ha hb
    · subst ha
      exact rlookup_level_isSome hb
  · intro a e' he'
    by_cases ha : a = k
    · subst ha
      rw [rlookup_level_zero, Option.some_inj] at he'
      exact ⟨kc, by rw [hm, he']⟩
    · rw [rlookup_level_stable (by simpa using ha)] at he'
      exact core.endp a e' he'
  · intro a b v hb1 hv
    by_cases ha : a = k
    · subst ha
      have hbk : b ≤ a := by
        rcases mem_fillRow (rlookup_mem hv) with hp | ⟨c, hc1, hck, hcp⟩
        · rcases List.mem_cons.mp hp with hp | hp
          · exact absurd (congrArg (fun q => q.1.2) hp) (by simp; omega)
          · exact absurd (core.keys _ hp).2 (by simp)
        · have : b = c := congrArg Prod.snd hcp
          omega
      rw [rlookup_level_entry hb1 hbk, Option.some_inj] at hv
      refine ⟨rget (fillRow a a (((a, 0), e) :: d)) (a, b - 1),
        rget (fillRow a a (((a, 0), e) :: d)) (a - 1, b - 1), ?_, ?_, hv.symm⟩
      · exact rlookup_isSome_rget (rlookup_level_isSome (by omega))
      · have hk1 : 1 ≤ a := le_trans hb1 hbk
        apply rlookup_isSome_rget
        rw [rlookup_level_stable (by simp; omega)]
        exact core.present (a - 1) (b - 1) (by omega) (by omega)
    · rw [rlookup_level_stable (by simpa using ha)] at hv
      obtain ⟨x, y, hx, hy, hval⟩ := core.recur a b v hb1 hv
      have hak : a < k := by
        have := (core.keys _ (rlookup_mem hv)).2
        exact this
      refine ⟨x, y, ?_, ?_, hval⟩
      · rw [rlookup_level_stable (by simp; omega)]; exact hx
      · rw [rlookup_level_stable (by simp; omega)]; exact hy

/-- Processing one level preserves the error history. -/
theorem errsAbove_step {k : ℕ} {d : RichTable n} {e : Vec n}
    (errs : ErrsAbove k d)
    (herr : 1 ≤ k → 1e-5 < rmsDiff (rget (fillRow k k (((k, 0), e) :: d)) (k, k))
      (rget (fillRow k k (((k, 0), e) :: d)) (k, k - 1))) :
    ErrsAbove (k + 1) (fillRow k k (((k, 0), e) :: d)) := by
  intro a ha1 hak
  rcases Nat.lt_succ_iff_lt_or_eq.mp hak with ha | ha
  · have h1 : rget (fillRow k k (((k, 0), e) :: d)) (a, a) = rget d (a, a) := by
      unfold rget; rw [rlookup_level_stable (by simp; omega)]
    have h2 : rget (fillRow k k (((k, 0), e) :: d)) (a, a - 1) = rget d (a, a - 1) := by
      unfold rget; rw [rlookup_level_stable (by simp; omega)]
    rw [h1, h2]
    exact errs a ha1 ha
  · subst ha
    exact herr ha1

end LevelLemmas

/-! ### Behaviour of the outer refinement loop -/

section CorrGoLemmas

variable {n : ℕ} {ctx : CorrCtx n} {init : Vec n} {marchFuel : ℕ}

theorem corrGo_zero (k : ℕ) (d : RichTable n) :
    corrGo ctx init marchFuel 0 k d = .raised d := rfl

theorem corrGo_succ_fuelOut {rem k : ℕ} {d : RichTable n} {kc : List (Vec n)}
    (hm : march ctx init (cslOf ctx.step_length k) marchFuel init 0 [] = .fuelOut kc) :
    corrGo ctx init marchFuel (rem + 1) k d = .fuelOut d := by
  rw [corrGo, hm]

theorem corrGo_succ_osc {rem k : ℕ} {d : RichTable n} {prev : Vec n} {kc : List (Vec n)}
    (hm : march ctx init (cslOf ctx.step_length k) marchFuel init 0 [] = .osc prev kc) :
    corrGo ctx init marchFuel (rem + 1) k d = .okOsc prev d := by
  rw [corrGo, hm]

theorem corrGo_succ_done {rem k : ℕ} {d : RichTable n} {e : Vec n} {kc : List (Vec n)}
    (hm : march ctx init (cslOf ctx.step_length k) marchFuel init 0 [] = .done e kc) :
    corrGo ctx init marchFuel (rem + 1) k d =
      (if 0 < k then
        (if rmsDiff (rget (fillRow k k (((k, 0), e) :: d)) (k, k))
            (rget (fillRow k k (((k, 0), e) :: d)) (k, k - 1)) ≤ 1e-5 then
          CorrRes.okConv k (rget (fillRow k k (((k, 0), e) :: d)) (k, k))
            (fillRow k k (((k, 0), e) :: d))
        else corrGo ctx init marchFuel rem (k + 1) (fillRow k k (((k, 0), e) :: d)))
      else corrGo ctx init marchFuel rem (k + 1) (fillRow k k (((k, 0), e) :: d))) := by
  rw [corrGo, hm]

/-- The invariant-propagation theorem of the outer refinement loop: every
outcome of `corrGo` satisfies the structural Richardson-table facts, a
convergence return happened at a level `k ≥ 1` with the RMS error within
tolerance, and a raise means all fifteen levels ran with every error above
tolerance. -/
theorem corrGo_spec (ctx : CorrCtx n) (init : Vec n) (marchFuel : ℕ) :
    ∀ rem k d, k + rem = 15 → CorrCore ctx init marchFuel k d → ErrsAbove k d →
    (∃ K, K ≤ 15 ∧
      CorrCore ctx init marchFuel K (tableOf (corrGo ctx init marchFuel rem k d))) ∧
    (∀ k' v t, corrGo ctx init marchFuel rem k d = .okConv k' v t →
      1 ≤ k' ∧ k' ≤ 14 ∧
      rmsDiff (rget t (k', k')) (rget t (k', k' - 1)) ≤ 1e-5 ∧
      v = rget t (k', k') ∧ (rlookup t (k', k')).isSome = true) ∧
    (∀ t, corrGo ctx init marchFuel rem k d = .raised t →
      CorrCore ctx init marchFuel 15 t ∧ ErrsAbove 15 t) := by
  intro rem
  induction rem with
  | zero =>
    intro k d hk core errs
    have hk15 : k = 15 := by omega
    subst hk15
    refine ⟨⟨15, le_refl _, core⟩, ?_, ?_⟩
    · intro k' v t h
      rw [corrGo_zero] at h
      simp at h
    · intro t h
      rw [corrGo_zero] at h
      obtain rfl : d = t := by injection h
      exact ⟨core, errs⟩
  | succ rem ih =>
    intro k d hk core errs
    have hk14 : k ≤ 14 := by omega
    cases hmarch : march ctx init (cslOf ctx.step_length k) marchFuel init 0 [] with
    | fuelOut kc =>
      rw [corrGo_succ_fuelOut hmarch]
      refine ⟨⟨k, by omega, core⟩, ?_, ?_⟩
      · intro k' v t h; simp at h
      · intro t h; simp at h
    | osc prev kc =>
      rw [corrGo_succ_osc hmarch]
      refine ⟨⟨k, by omega, core⟩, ?_, ?_⟩
      · intro k' v t h; simp at h
      · intro t h; simp at h
    | done e kc =>
      have core2 := corrCore_step core hmarch
      rw [corrGo_succ_done hmarch]
      by_cases hk0 : 0 < k
      · rw [if_pos hk0]
        by_cases herr : rmsDiff (rget (fillRow k k (((k, 0), e) :: d)) (k, k))
            (rget (fillRow k k (((k, 0), e) :: d)) (k, k - 1)) ≤ 1e-5
        · rw [if_pos herr]
          refine ⟨⟨k + 1, by omega, core2⟩, ?_, ?_⟩
          · intro k' v t h
            obtain ⟨hk', hv, ht⟩ := CorrRes.okConv.injEq .. ▸ h
            subst hk'
            rw [← ht]
            exact ⟨hk0, hk14, herr, hv.symm,
              core2.present k k (Nat.lt_succ_self k) (le_refl k)⟩
          · intro t h; simp at h
        · rw [if_neg herr]
          exact ih (k + 1) (fillRow k k (((k, 0), e) :: d)) (by omega) core2
            (errsAbove_step errs (fun _ => lt_of_not_le herr))
      · rw [if_neg hk0]
        exact ih (k + 1) (fillRow k k (((k, 0), e) :: d)) (by omega) core2
          (errsAbove_step errs (fun h1 => absurd h1 (by omega)))

end CorrGoLemmas

/-! ### Claim theorems about the corrector -/

/-- C1: every corrector invocation uses, at refinement level `k`, marching
with per-step size `corr_step_length = step_length / (points - 1)` for
`points = 20 * 2^k`; the level-`k` endpoint is stored at Richardson entry
`(k, 0)` (levels range over `k = 0..14` only), and every higher-order entry
satisfies `(k, j) = (2^j * R[k,j-1] - R[k-1,j-1]) / (2^j - 1)` for
`j = 1..k`. -/
theorem corrector_richardson_levels {n : ℕ} (ctx : CorrCtx n) (init : Vec n)
    (marchFuel : ℕ) :
    (∀ k e, rlookup (tableOf (corrector_step ctx init marchFuel)) (k, 0) = some e →
      ∃ kc, march ctx init (ctx.step_length / (20 * 2 ^ k - 1)) marchFuel init 0 []
        = .done e kc) ∧
    (∀ k j v, 1 ≤ j →
      rlookup (tableOf (corrector_step ctx init marchFuel)) (k, j) = some v →
      j ≤ k ∧ k ≤ 14 ∧
      ∃ x y, rlookup (tableOf (corrector_step ctx init marchFuel)) (k, j - 1) = some x ∧
        rlookup (tableOf (corrector_step ctx init marchFuel)) (k - 1, j - 1) = some y ∧
        v = fun i => ((2 : ℝ) ^ j * x i - y i) / ((2 : ℝ) ^ j - 1)) := by
  obtain ⟨⟨K, hK15, coreK⟩, _, _⟩ :=
    corrGo_spec ctx init marchFuel 15 0 [] rfl
      (corrCore_nil ctx init marchFuel) errsAbove_nil
  constructor
  · intro k e he
    have h := coreK.endp k e he
    simpa [cslOf] using h
  · intro k j v hj hv
    have hkey : j ≤ k ∧ k < K := coreK.keys _ (rlookup_mem hv)
    obtain ⟨x, y, hx, hy, hval⟩ := coreK.recur k j v hj hv
    exact ⟨hkey.1, by omega, x, y, hx, hy, hval⟩

/-- C2: the corrector's convergence test can only succeed at refinement
levels `k ≥ 1`; it compares the RMS difference of Richardson entries
`R[k,k]` and `R[k,k-1]` against `1e-5`, and on success the accepted
corrected point is exactly `R[k,k]`. -/
theorem corrector_convergence_check {n : ℕ} (ctx : CorrCtx n) (init : Vec n)
    (marchFuel : ℕ) (k : ℕ) (v : Vec n) (t : RichTable n)
    (h : corrector_step ctx init marchFuel = .okConv k v t) :
    1 ≤ k ∧ rmsDiff (rget t (k, k)) (rget t (k, k - 1)) ≤ 1e-5 ∧
      v = rget t (k, k) := by
  obtain ⟨_, hconv, _⟩ :=
    corrGo_spec ctx init marchFuel 15 0 [] rfl
      (corrCore_nil ctx init marchFuel) errsAbove_nil
  obtain ⟨h1, _, herr, hv, _⟩ := hconv k v t h
  exact ⟨h1, herr, hv⟩

/-- C3: the corrector raises only after exhausting all refinement levels
`k = 0..14` with every checked RMS error above the tolerance; every other
completed invocation (convergence or oscillation abort) hands a point back
to the caller instead of raising. -/
theorem corrector_raise_on_exhaustion {n : ℕ} (ctx : CorrCtx n) (init : Vec n)
    (marchFuel : ℕ) :
    (∀ t, corrector_step ctx init marchFuel = .raised t →
      (∀ a, a ≤ 14 →
        ∃ e kc, march ctx init (cslOf ctx.step_length a) marchFuel init 0 []
          = .done e kc) ∧
      (∀ a, 1 ≤ a → a ≤ 14 →
        1e-5 < rmsDiff (rget t (a, a)) (rget t (a, a - 1)))) ∧
    (∀ res, corrector_step ctx init marchFuel = res →
      (∀ t, res ≠ .raised t) → (∀ t, res ≠ .fuelOut t) →
      ∃ p, pointOf res = some p) := by
  obtain ⟨_, _, hraise⟩ :=
    corrGo_spec ctx init marchFuel 15 0 [] rfl
      (corrCore_nil ctx init marchFuel) errsAbove_nil
  constructor
  · intro t h
    obtain ⟨core15, errs15⟩ := hraise t h
    constructor
    · intro a ha
      have hs := core15.present a 0 (by omega) (Nat.zero_le a)
      exact ⟨rget t (a, 0), core15.endp a _ (rlookup_isSome_rget hs)⟩
    · intro a ha1 ha14
      exact errs15 a ha1 (by omega)
  · intro res _ hnr hnf
    cases res with
    | okConv k v t => exact ⟨v, rfl⟩
    | okOsc v t => exact ⟨v, rfl⟩
    | raised t => exact absurd rfl (hnr t)
    | fuelOut t => exact absurd rfl (hnf t)

/-! ### The marching loop, step by step -/

section MarchLemmas

variable {n : ℕ} {ctx : CorrCtx n} {init : Vec n} {csl : ℝ}

/-- The recorded `k_coords` of a finished marching loop. -/
def kcoordsOf {n : ℕ} : MarchRes n → List (Vec n)
  | .done _ kc => kc
  | .osc _ kc => kc
  | .fuelOut kc => kc

theorem march_zero (cur : Vec n) (curLen : ℝ) (ks : List (Vec n)) :
    march ctx init csl 0 cur curLen ks = .fuelOut ks := rfl

theorem march_succ_break {fuel : ℕ} {cur : Vec n} {curLen : ℝ} {ks : List (Vec n)}
    (h : |ctx.step_length - curLen| < 0.5 * csl) :
    march ctx init csl (fuel + 1) cur curLen ks = .done cur (ks ++ [cur]) := by
  rw [march, if_pos h]

theorem march_succ_first {fuel : ℕ} {cur : Vec n} {curLen : ℝ} {ks : List (Vec n)}
    (h : ¬ |ctx.step_length - curLen| < 0.5 * csl) (hlast : ks.getLast? = none) :
    march ctx init csl (fuel + 1) cur curLen ks =
      march ctx init csl fuel (corrMicroStep (ctx.dwiGrad cur) csl cur)
        (get_integration_length ctx.m_sqrt init (corrMicroStep (ctx.dwiGrad cur) csl cur))
        (ks ++ [cur]) := by
  rw [march, if_neg h]
  simp only [hlast]

theorem march_succ_osc {fuel : ℕ} {cur prev : Vec n} {curLen : ℝ} {ks : List (Vec n)}
    (h : ¬ |ctx.step_length - curLen| < 0.5 * csl) (hlast : ks.getLast? = some prev)
    (hosc : npNorm (fun i => corrMicroStep (ctx.dwiGrad cur) csl cur i - prev i) ≤ csl) :
    march ctx init csl (fuel + 1) cur curLen ks = .osc prev (ks ++ [cur]) := by
  rw [march, if_neg h]
  simp only [hlast]
  rw [if_pos hosc]

theorem march_succ_cont {fuel : ℕ} {cur prev : Vec n} {curLen : ℝ} {ks : List (Vec n)}
    (h : ¬ |ctx.step_length - curLen| < 0.5 * csl) (hlast : ks.getLast? = some prev)
    (hosc : ¬ npNorm (fun i => corrMicroStep (ctx.dwiGrad cur) csl cur i - prev i) ≤ csl) :
    march ctx init csl (fuel + 1) cur curLen ks =
      march ctx init csl fuel (corrMicroStep (ctx.dwiGrad cur) csl cur)
        (get_integration_length ctx.m_sqrt init (corrMicroStep (ctx.dwiGrad cur) csl cur))
        (ks ++ [cur]) := by
  rw [march, if_neg h]
  simp only [hlast]
  rw [if_neg hosc]

/-- The displacement of one corrector micro-step has norm exactly equal to
the per-step size when the interpolated gradient does not vanish. -/
theorem corrMicroStep_norm {g : Vec n} (hg : g ≠ 0) {csl : ℝ} (hcsl : 0 ≤ csl)
    (cur : Vec n) :
    npNorm (fun i => corrMicroStep g csl cur i - cur i) = csl := by
  have hstep : (fun i => corrMicroStep g csl cur i - cur i)
      = fun i => csl * -g i / npNorm g := by
    funext i
    simp [corrMicroStep]
  rw [hstep, npNorm_normalized_step csl hg, abs_of_nonneg hcsl]

/-- Along a corrector level, consecutive recorded points are separated by
exactly the per-step size. -/
theorem march_chain (hg : ∀ v, ctx.dwiGrad v ≠ 0) (hcsl : 0 ≤ csl) :
    ∀ (fuel : ℕ) (cur : Vec n) (curLen : ℝ) (ks : List (Vec n)),
    List.Chain' (fun a b => npNorm (fun i => b i - a i) = csl) (ks ++ [cur]) →
    List.Chain' (fun a b => npNorm (fun i => b i - a i) = csl)
      (kcoordsOf (march ctx init csl fuel cur curLen ks)) := by
  intro fuel
  induction fuel with
  | zero =>
    intro cur curLen ks hchain
    rw [march_zero]
    exact ((List.chain'_append.mp hchain).1 : _)
  | succ fuel ih =>
    intro cur curLen ks hchain
    by_cases hbr : |ctx.step_length - curLen| < 0.5 * csl
    · rw [march_succ_break hbr]
      exact hchain
    · have hnext : List.Chain' (fun a b => npNorm (fun i => b i - a i) = csl)
          ((ks ++ [cur]) ++ [corrMicroStep (ctx.dwiGrad cur) csl cur]) := by
        rw [List.chain'_append]
        refine ⟨hchain, List.chain'_singleton _, ?_⟩
        intro x hx y hy
        rw [List.getLast?_concat] at hx
        rw [Option.mem_def, Option.some_inj] at hx
        simp only [List.head?_cons, Option.mem_def, Option.some_inj] at hy
        subst hx
        subst hy
        exact corrMicroStep_norm (hg cur) hcsl cur
      cases hlast : ks.getLast? with
      | none =>
        rw [march_succ_first hbr hlast]
        exact ih _ _ _ hnext
      | some prev =>
        by_cases hosc : npNorm
            (fun i => corrMicroStep (ctx.dwiGrad cur) csl cur i - prev i) ≤ csl
        · rw [march_succ_osc hbr hlast hosc]
          exact hchain
        · rw [march_succ_cont hbr hlast hosc]
          exact ih _ _ _ hnext

end MarchLemmas

/-- C4 (amended): the corrector's oscillation guard fires when the newly
stepped point lies within the current step size of the second-to-last
recorded point, i.e. the point two micro-steps back (not of the immediately
preceding point, whose separation always equals the step size); the level
aborts at once with that second-to-last point and the corrector returns it
as the accepted result without raising. -/
theorem corrector_oscillation_abort {n : ℕ} (ctx : CorrCtx n) (init : Vec n)
    (csl : ℝ) (fuel marchFuel rem k : ℕ) (cur prev : Vec n) (curLen : ℝ)
    (ks kc : List (Vec n)) (d : RichTable n) :
    (¬ |ctx.step_length - curLen| < 0.5 * csl → ks.getLast? = some prev →
      npNorm (fun i => corrMicroStep (ctx.dwiGrad cur) csl cur i - prev i) ≤ csl →
      march ctx init csl (fuel + 1) cur curLen ks = .osc prev (ks ++ [cur])) ∧
    (march ctx init (cslOf ctx.step_length k) marchFuel init 0 [] = .osc prev kc →
      corrGo ctx init marchFuel (rem + 1) k d = .okOsc prev d) :=
  ⟨fun hbr hlast hosc => march_succ_osc hbr hlast hosc,
    fun hm => corrGo_succ_osc hm⟩

/-- C10: inside refinement level `k`, every micro-step displaces the current
point by mass-weighted norm exactly `corr_step_length` (the interpolated
gradient is normalized before scaling), so consecutive recorded points on
the level-`k` corrector path are separated by exactly `corr_step_length`
whenever the interpolated gradient is nonzero. -/
theorem corrector_micro_step_size {n : ℕ} (ctx : CorrCtx n) (init cur g : Vec n)
    (k fuel : ℕ) (hg : g ≠ 0) (hgs : ∀ v, ctx.dwiGrad v ≠ 0)
    (hsl : 0 ≤ ctx.step_length) :
    npNorm (fun i => corrMicroStep g (cslOf ctx.step_length k) cur i - cur i)
      = cslOf ctx.step_length k ∧
    List.Chain' (fun a b => npNorm (fun i => b i - a i) = cslOf ctx.step_length k)
      (kcoordsOf (march ctx init (cslOf ctx.step_length k) fuel init 0 [])) := by
  have h2 : (1 : ℝ) ≤ 2 ^ k := one_le_pow₀ (by norm_num)
  have hcsl : 0 ≤ cslOf ctx.step_length k := by
    unfold cslOf
    apply div_nonneg hsl
    nlinarith
  refine ⟨corrMicroStep_norm hg hcsl cur, ?_⟩
  apply march_chain hgs hcsl
  simp

/-! ### A concrete corrector run: constant unit gradient field in 1-D -/

/-- A constant vector in one dimension. -/
def konst (x : ℝ) : Vec 1 := fun _ => x

/-- One-dimensional corrector context: unit mass, constant interpolated
gradient `1`, target arc length `1`. -/
def ctxConst : CorrCtx 1 :=
  { m_sqrt := konst 1, dwiGrad := fun _ => konst 1, step_length := 1 }

theorem npNorm_konst (x : ℝ) : npNorm (konst x) = |x| := by
  unfold npNorm konst
  rw [Fin.sum_univ_one, Real.sqrt_sq_eq_abs]

theorem konst_ne_zero {x : ℝ} (hx : x ≠ 0) : konst x ≠ 0 :=
  fun h => hx (congrFun h 0)

theorem intLen_konst (x : ℝ) :
    get_integration_length (konst 1) (konst 0) (konst x) = |x| := by
  unfold get_integration_length unweight_vec
  have h : (fun i : Fin 1 => (konst x i - konst 0 i) / konst 1 i) = konst x := by
    funext i
    simp [konst]
  rw [h, npNorm_konst]

theorem corrMicroStep_one (csl x : ℝ) :
    corrMicroStep (konst 1) csl (konst x) = konst (x - csl) := by
  funext i
  simp [corrMicroStep, konst, npNorm_konst]
  ring

/-- With a constant unit gradient the corrector level marches straight from
the start to the target in uniform per-step decrements and finishes. -/
theorem march_const (N : ℕ) (hN : 0 < N) :
    ∀ (fuel m : ℕ) (ks : List (Vec 1)), m ≤ N → N - m < fuel →
    (ks.getLast? = none ∨ ks.getLast? = some (konst (-(((m : ℝ) - 1) / N)))) →
    ∃ kc, march ctxConst (konst 0) (1 / N) fuel (konst (-((m : ℝ) / N))) ((m : ℝ) / N) ks
      = .done (konst (-1)) kc := by
  intro fuel
  induction fuel with
  | zero => intro m ks hm hf _; omega
  | succ fuel ih =>
    intro m ks hm hf hks
    have hNr : (0 : ℝ) < N := by exact_mod_cast hN
    rcases Nat.lt_or_ge m N with hlt | hge
    · have hmr : ((m : ℝ) + 1) ≤ N := by exact_mod_cast hlt
      have hbr : ¬ |ctxConst.step_length - (m : ℝ) / N| < 0.5 * (1 / N) := by
        rw [show ctxConst.step_length = 1 from rfl]
        have hpos : 0 ≤ 1 - (m : ℝ) / N := by
          rw [sub_nonneg]
          apply div_le_one_of_le₀ ?_ hNr.le
          linarith
        rw [abs_of_nonneg hpos]
        intro hcon
        have hdivm : (m : ℝ) / N * N = m := div_mul_cancel₀ _ hNr.ne'
        have hdiv1 : (1 : ℝ) / N * N = 1 := div_mul_cancel₀ _ hNr.ne'
        nlinarith [mul_lt_mul_of_pos_right hcon hNr]
      have hms : corrMicroStep (ctxConst.dwiGrad (konst (-((m : ℝ) / N)))) (1 / N)
          (konst (-((m : ℝ) / N))) = konst (-(((m : ℝ) + 1) / N)) := by
        rw [show ctxConst.dwiGrad (konst (-((m : ℝ) / N))) = konst 1 from rfl,
          corrMicroStep_one]
        ring_nf
      have hlen : get_integration_length ctxConst.m_sqrt (konst 0)
          (konst (-(((m : ℝ) + 1) / N))) = ((m : ℝ) + 1) / N := by
        rw [show ctxConst.m_sqrt = konst 1 from rfl, intLen_konst, abs_neg,
          abs_of_nonneg (by positivity)]
      obtain ⟨kc, hkc⟩ := ih (m + 1) (ks ++ [konst (-((m : ℝ) / N))]) (by omega) (by omega)
        (Or.inr (by
          rw [List.getLast?_concat]
          congr 1
          funext i
          push_cast
          ring_nf))
      have hc1 : ((m + 1 : ℕ) : ℝ) = (m : ℝ) + 1 := by push_cast; ring
      rw [hc1] at hkc
      rcases hks with hnone | hsome
      · refine ⟨kc, ?_⟩
        rw [march_succ_first hbr hnone, hms, hlen]
        exact hkc
      · have hosc : ¬ npNorm (fun i =>
            corrMicroStep (ctxConst.dwiGrad (konst (-((m : ℝ) / N)))) (1 / N)
              (konst (-((m : ℝ) / N))) i - konst (-(((m : ℝ) - 1) / N)) i) ≤ 1 / N := by
          rw [hms]
          have hdiff : (fun i : Fin 1 =>
              konst (-(((m : ℝ) + 1) / N)) i - konst (-(((m : ℝ) - 1) / N)) i)
              = konst (-(2 / N)) := by
            funext i
            simp [konst]
            ring
          rw [hdiff, npNorm_konst, abs_neg, abs_of_nonneg (by positivity)]
          intro hcon
          rw [div_le_div_iff₀ hNr hNr] at hcon
          nlinarith
        refine ⟨kc, ?_⟩
        rw [march_succ_cont hbr hsome hosc, hms, hlen]
        exact hkc
    · have hmN : m = N := le_antisymm hm hge
      subst hmN
      have hNN : ((m : ℝ)) / m = 1 := div_self hNr.ne'
      have hbr : |ctxConst.step_length - (m : ℝ) / m| < 0.5 * (1 / m) := by
        rw [show ctxConst.step_length = 1 from rfl, hNN]
        simp only [sub_self, abs_zero]
        positivity
      refine ⟨ks ++ [konst (-((m : ℝ) / m))], ?_⟩
      rw [march_succ_break hbr, hNN]

/-- The Richardson table left by the constant-gradient corrector run. -/
def constTable : RichTable 1 :=
  [((1, 1), konst (-1)), ((1, 0), konst (-1)), ((0, 0), konst (-1))]

/-- The full constant-gradient corrector run: level `0` marches `19` steps
to `-1`, level `1` marches `39` steps to `-1`, the Richardson error at level
`1` vanishes and `R[1,1] = -1` is returned. -/
theorem corr_const_run :
    corrector_step ctxConst (konst 0) 50 = .okConv 1 (konst (-1)) constTable := by
  obtain ⟨kc0, h0⟩ := march_const 19 (by norm_num) 50 0 [] (by omega) (by omega) (Or.inl rfl)
  obtain ⟨kc1, h1⟩ := march_const 39 (by norm_num) 50 0 [] (by omega) (by omega) (Or.inl rfl)
  norm_num at h0 h1
  have hm0 : march ctxConst (konst 0) (cslOf ctxConst.step_length 0) 50 (konst 0) 0 []
      = .done (konst (-1)) kc0 := by
    rw [show cslOf ctxConst.step_length 0 = (1 : ℝ) / 19 by norm_num [cslOf, ctxConst]]
    exact h0
  have hm1 : march ctxConst (konst 0) (cslOf ctxConst.step_length 1) 50 (konst 0) 0 []
      = .done (konst (-1)) kc1 := by
    rw [show cslOf ctxConst.step_length 1 = (1 : ℝ) / 39 by norm_num [cslOf, ctxConst]]
    exact h1
  have hT : fillRow 1 1 (((1, 0), konst (-1)) ::
      fillRow 0 0 (((0, 0), konst (-1)) :: [])) = constTable := by
    unfold constTable fillRow
    refine List.cons_eq_cons.mpr ⟨?_, rfl⟩
    refine Prod.ext rfl ?_
    funext i
    have h10 : rget (((1, 0), konst (-1)) :: [((0, 0), konst (-1))]) (1, 0) = konst (-1) := by
      simp [rget, rlookup]
    have h00 : rget (((1, 0), konst (-1)) :: [((0, 0), konst (-1))]) (0, 0) = konst (-1) := by
      simp [rget, rlookup]
    show ((2 : ℝ) ^ 1 * rget (((1, 0), konst (-1)) :: [((0, 0), konst (-1))]) (1, 0) i
      - rget (((1, 0), konst (-1)) :: [((0, 0), konst (-1))]) (0, 0) i) / ((2 : ℝ) ^ 1 - 1)
      = konst (-1) i
    rw [h10, h00]
    show ((2 : ℝ) ^ 1 * (-1) - (-1)) / ((2 : ℝ) ^ 1 - 1) = -1
    norm_num
  have herr : rmsDiff (rget constTable (1, 1)) (rget constTable (1, 1 - 1)) ≤ 1e-5 := by
    have hv : rget constTable (1, 1) = konst (-1) := by simp [constTable, rget, rlookup]
    have hw : rget constTable (1, 1 - 1) = konst (-1) := by simp [constTable, rget, rlookup]
    rw [hv, hw]
    unfold rmsDiff
    norm_num
  unfold corrector_step
  rw [corrGo_succ_done hm0, if_neg (by omega), corrGo_succ_done hm1, hT,
    if_pos (by omega), if_pos herr]
  have hv : rget constTable (1, 1) = konst (-1) := by simp [constTable, rget, rlookup]
  rw [hv]

/-- Witness for C1: in the constant-gradient run, entry `(0, 0)` of the
final table is the endpoint of the level-`0` march with step size
`step_length / (20*2^0 - 1)`, and entry `(1, 1)` satisfies the Richardson
recurrence. -/
theorem corrector_richardson_levels_witness :
    (∃ kc, march ctxConst (konst 0) (ctxConst.step_length / (20 * 2 ^ (0 : ℕ) - 1)) 50
      (konst 0) 0 [] = .done (konst (-1)) kc) ∧
    (1 ≤ 1 ∧ 1 ≤ 14 ∧
      ∃ x y, rlookup (tableOf (corrector_step ctxConst (konst 0) 50)) (1, 1 - 1) = some x ∧
        rlookup (tableOf (corrector_step ctxConst (konst 0) 50)) (1 - 1, 1 - 1) = some y ∧
        konst (-1) = fun i => ((2 : ℝ) ^ (1 : ℕ) * x i - y i) / ((2 : ℝ) ^ (1 : ℕ) - 1)) := by
  have h := corrector_richardson_levels ctxConst (konst 0) 50
  constructor
  · exact h.1 0 (konst (-1))
      (by rw [corr_const_run]; simp [tableOf, constTable, rlookup])
  · exact h.2 1 1 (konst (-1)) (le_refl 1)
      (by rw [corr_const_run]; simp [tableOf, constTable, rlookup])

/-- Witness for C2: the constant-gradient run returns by convergence at
level `1` with vanishing RMS error, handing back `R[1,1]`. -/
theorem corrector_convergence_check_witness :
    1 ≤ 1 ∧ rmsDiff (rget constTable (1, 1)) (rget constTable (1, 1 - 1)) ≤ 1e-5 ∧
      konst (-1) = rget constTable (1, 1) :=
  corrector_convergence_check ctxConst (konst 0) 50 1 (konst (-1)) constTable corr_const_run

/-- Witness for C3: the constant-gradient corrector run completes without
raising and hands a point back. -/
theorem corrector_raise_on_exhaustion_witness :
    ∃ p, pointOf (CorrRes.okConv 1 (konst (-1)) constTable) = some p :=
  (corrector_raise_on_exhaustion ctxConst (konst 0) 50).2
    (.okConv 1 (konst (-1)) constTable) corr_const_run
    (fun t h => by simp at h) (fun t h => by simp at h)

/-- Counterexample to C4 as stated: in the constant-gradient run the very
first two points of the level-`0` walk are separated by exactly the step
size (so the claimed trigger "consecutive points' separation norm is at most
the step size" holds), yet the corrector does not abort by oscillation — it
completes by convergence.  The code's guard compares the new point with the
point two micro-steps back, not with the immediately preceding point. -/
theorem corrector_oscillation_claim_counterexample :
    npNorm (fun i => corrMicroStep (ctxConst.dwiGrad (konst 0))
        (cslOf ctxConst.step_length 0) (konst 0) i - konst 0 i)
      ≤ cslOf ctxConst.step_length 0 ∧
    isOscAbort (corrector_step ctxConst (konst 0) 50) = false := by
  constructor
  · have hg : ctxConst.dwiGrad (konst 0) = konst 1 := rfl
    have hcsl : (0 : ℝ) ≤ cslOf ctxConst.step_length 0 := by
      norm_num [cslOf, ctxConst]
    rw [hg, corrMicroStep_norm (konst_ne_zero one_ne_zero) hcsl]
  · rw [corr_const_run]
    rfl

/-- One-dimensional context whose interpolated gradient field flips sign at
the origin, so the corrector walk starts oscillating at once. -/
def ctxFlip : CorrCtx 1 :=
  { m_sqrt := konst 1,
    dwiGrad := fun c => if c 0 < 0 then konst (-1) else konst 1,
    step_length := 1 }

theorem corrMicroStep_negone (csl x : ℝ) :
    corrMicroStep (konst (-1)) csl (konst x) = konst (x + csl) := by
  funext i
  simp [corrMicroStep, konst, npNorm_konst]

/-- Witness for the amended C4: in the sign-flipping field the second
micro-step returns to the start point, landing within the step size of the
second-to-last recorded point, and the march aborts with that point. -/
theorem corrector_oscillation_abort_witness :
    (¬ |ctxFlip.step_length - 1 / 19| < 0.5 * (1 / 19)) ∧
    npNorm (fun i => corrMicroStep (ctxFlip.dwiGrad (konst (-(1 / 19)))) (1 / 19)
      (konst (-(1 / 19))) i - konst 0 i) ≤ 1 / 19 ∧
    march ctxFlip (konst 0) (1 / 19) 1 (konst (-(1 / 19))) (1 / 19) [konst 0]
      = .osc (konst 0) ([konst 0] ++ [konst (-(1 / 19))]) := by
  have hbr : ¬ |ctxFlip.step_length - 1 / 19| < 0.5 * (1 / 19) := by
    rw [show ctxFlip.step_length = (1 : ℝ) from rfl,
      abs_of_nonneg (by norm_num : (0 : ℝ) ≤ 1 - 1 / 19)]
    norm_num
  have hg : ctxFlip.dwiGrad (konst (-(1 / 19))) = konst (-1) := by
    show (if (konst (-(1 / 19)) : Vec 1) 0 < 0 then konst (-1) else konst 1) = konst (-1)
    rw [if_pos (by norm_num [konst])]
  have hosc : npNorm (fun i => corrMicroStep (ctxFlip.dwiGrad (konst (-(1 / 19)))) (1 / 19)
      (konst (-(1 / 19))) i - konst 0 i) ≤ 1 / 19 := by
    rw [hg, corrMicroStep_negone]
    have hzero : (fun i : Fin 1 => konst (-(1 / 19) + 1 / 19) i - konst 0 i) = konst 0 := by
      funext i
      simp [konst]
    rw [hzero, npNorm_konst]
    norm_num
  exact ⟨hbr, hosc,
    (corrector_oscillation_abort ctxFlip (konst 0) (1 / 19) 0 0 0 0
      (konst (-(1 / 19))) (konst 0) (1 / 19) [konst 0] [] []).1 hbr rfl hosc⟩

/-- Witness for C10 at the constant-gradient context. -/
theorem corrector_micro_step_size_witness :
    npNorm (fun i => corrMicroStep (konst 1) (cslOf ctxConst.step_length 0) (konst 0) i
      - konst 0 i) = cslOf ctxConst.step_length 0 ∧
    List.Chain' (fun a b => npNorm (fun i => b i - a i) = cslOf ctxConst.step_length 0)
      (kcoordsOf (march ctxConst (konst 0) (cslOf ctxConst.step_length 0) 3 (konst 0) 0 [])) :=
  corrector_micro_step_size ctxConst (konst 0) (konst 0) (konst 1) 0 3
    (konst_ne_zero one_ne_zero) (fun _ => konst_ne_zero one_ne_zero)
    (by norm_num [ctxConst])

/-! ## Predictor integrator (EulerPC.py lines 69-195) -/

/-- `taylor_gradient` (EulerPC.py lines 120-122): gradient of the second
order Taylor expansion of the energy, `mw_grad + mw_H @ step`. -/
def taylor_gradient {n : ℕ} (mw_grad : Vec n) (mw_H : Matrix (Fin n) (Fin n) ℝ)
    (step : Vec n) : Vec n :=
  fun i => mw_grad i + mw_H.mulVec step i

/-- Result of the predictor Euler integration loop (EulerPC.py lines
130-154).  `trace` records the coordinates at the start of each executed
iteration (where `cur_length` is computed); `reached` is the `break` once
the target arc length is reached, `exhausted` the `for`-`else` fall
through. -/
inductive EulerRes (n : ℕ) where
  | reached (coords grad : Vec n) (trace : List (Vec n))
  | exhausted (coords grad : Vec n) (trace : List (Vec n))

/-- The coordinates a finished Euler integration stands at. -/
def eulerCoords {n : ℕ} : EulerRes n → Vec n
  | .reached c _ _ => c
  | .exhausted c _ _ => c

/-- The visited points of a finished Euler integration. -/
def eulerTrace {n : ℕ} : EulerRes n → List (Vec n)
  | .reached _ _ tr => tr
  | .exhausted _ _ tr => tr

/-- The predictor Euler integration loop `for i in range(self.max_pred_steps)`
(EulerPC.py lines 130-154): stop once the integration length reaches
`step_length`, otherwise displace by `euler_step_length` opposite the
current Taylor-model gradient and re-evaluate that gradient at the new
offset from the start point. -/
def eulerLoop {n : ℕ} (m_sqrt mw_grad0 : Vec n) (mw_H : Matrix (Fin n) (Fin n) ℝ)
    (sl h : ℝ) (init : Vec n) :
    ℕ → Vec n → Vec n → List (Vec n) → EulerRes n
  | 0, coords, grad, tr => .exhausted coords grad tr
  | fuel + 1, coords, grad, tr =>
    if sl ≤ get_integration_length m_sqrt init coords then
      .reached coords grad (tr ++ [coords])
    else
      eulerLoop m_sqrt mw_grad0 mw_H sl h init fuel
        (fun i => coords i + h * -grad i / npNorm grad)
        (taylor_gradient mw_grad0 mw_H
          (fun i => (coords i + h * -grad i / npNorm grad) - init i))
        (tr ++ [coords])

/-- `conv_fact` (EulerPC.py lines 113-116): ratio of the un-mass-weighted
and mass-weighted gradient norms, floored at `2`. -/
def conv_fact {n : ℕ} (m_sqrt mw_grad : Vec n) : ℝ :=
  max 2 (npNorm (unweight_vec m_sqrt mw_grad) / npNorm mw_grad)

/-- `euler_step_length = step_length / (max_pred_steps / conv_fact)`
(EulerPC.py line 118). -/
def euler_step_length {n : ℕ} (m_sqrt mw_grad : Vec n) (sl : ℝ) (max_steps : ℕ) : ℝ :=
  sl / ((max_steps : ℝ) / conv_fact m_sqrt mw_grad)

/-- One sample handed to `dwi.update` (the DWI itself is not part of the
sources; the sample data is recorded instead). -/
structure DwiSample (n : ℕ) where
  coords : Vec n
  energy : ℝ
  grad : Vec n
  hess : Matrix (Fin n) (Fin n) ℝ

/-- Context of one predictor macro-step (`self` state and collaborator
oracles of `EulerPC.step`).  `calcGrad`/`calcEnergy` are the calculator
(spec section 6); `hessUpd` is the configured Hessian update rule returning
the additive correction `dH` (`hessian_updates` is not in the sources);
`dwiGradAfter` is the DWI gradient oracle after the endpoint sample was
added.  Modelled from the spec: `irc_last_mw_coords`/`irc_last_mw_gradient`
stand for `self.irc_mw_coords[-1]`/`self.irc_mw_gradients[-1]`, the last
history entries recorded by the `IRC` base class (not in the sources), i.e.
the data of the macro-step's start point. -/
structure PredCtx (n : ℕ) where
  m_sqrt : Vec n
  mw_coords : Vec n
  calcGrad : Vec n → Vec n
  calcEnergy : Vec n → ℝ
  mw_H : Matrix (Fin n) (Fin n) ℝ
  step_length : ℝ
  max_pred_steps : ℕ
  rms_grad_thresh : ℝ
  irc_last_mw_coords : Vec n
  irc_last_mw_gradient : Vec n
  hessUpd : Matrix (Fin n) (Fin n) ℝ → Vec n → Vec n → Matrix (Fin n) (Fin n) ℝ
  dwiGradAfter : Vec n → Vec n

/-- Observable outcome of one predictor macro-step: the final geometry, the
convergence flag, the counts of calculator evaluations / Hessian updates /
DWI updates performed at the predictor endpoint (lines 177-188), the
logged Euler step length, the visited predictor points, the sample handed
to `dwi.update`, and the corrector outcome when the corrector ran. -/
structure PredRun (n : ℕ) where
  mw_coords : Vec n
  converged : Bool
  endpointEvals : ℕ
  endpointHessUpdates : ℕ
  endpointDwiUpdates : ℕ
  eulerStepLen : ℝ
  eulerPath : List (Vec n)
  dwiSample : Option (DwiSample n)
  corrRes : Option (CorrRes n)

/-- The downstream tail of the predictor step (EulerPC.py lines 174-195):
one calculator evaluation at the reached endpoint, one Hessian update
against the previous IRC point, one DWI update with the endpoint data, then
the corrector; the corrected point becomes the new geometry (on a corrector
raise the exception propagates with the geometry left at the endpoint). -/
def predictorDownstream {n : ℕ} (ctx : PredCtx n) (corrFuel : ℕ)
    (init c : Vec n) (h : ℝ) (tr : List (Vec n)) : PredRun n :=
  { mw_coords :=
      match corrector_step ⟨ctx.m_sqrt, ctx.dwiGradAfter, ctx.step_length⟩ init corrFuel with
      | .okConv _ v _ => v
      | .okOsc v _ => v
      | .raised _ => c
      | .fuelOut _ => c
    converged := false
    endpointEvals := 1
    endpointHessUpdates := 1
    endpointDwiUpdates := 1
    eulerStepLen := h
    eulerPath := tr
    dwiSample := some
      ⟨c, ctx.calcEnergy c, ctx.calcGrad c,
        ctx.mw_H + ctx.hessUpd ctx.mw_H
          (fun i => c i - ctx.irc_last_mw_coords i)
          (fun i => ctx.calcGrad c i - ctx.irc_last_mw_gradient i)⟩
    corrRes := some
      (corrector_step ⟨ctx.m_sqrt, ctx.dwiGradAfter, ctx.step_length⟩ init corrFuel) }

/-- The predictor phase of `EulerPC.step` (EulerPC.py lines 89-195): Euler
integration from the current geometry; on exhaustion with a sufficiently
small Taylor-model RMS gradient the step declares convergence and returns
at once (lines 151-171), otherwise the downstream evaluation / update /
corrector tail runs at the reached endpoint. -/
def step {n : ℕ} (ctx : PredCtx n) (corrFuel : ℕ) : PredRun n :=
  match eulerLoop ctx.m_sqrt (ctx.calcGrad ctx.mw_coords) ctx.mw_H ctx.step_length
      (euler_step_length ctx.m_sqrt (ctx.calcGrad ctx.mw_coords) ctx.step_length
        ctx.max_pred_steps)
      ctx.mw_coords ctx.max_pred_steps ctx.mw_coords (ctx.calcGrad ctx.mw_coords) [] with
  | .reached c _ tr =>
    predictorDownstream ctx corrFuel ctx.mw_coords c
      (euler_step_length ctx.m_sqrt (ctx.calcGrad ctx.mw_coords) ctx.step_length
        ctx.max_pred_steps) tr
  | .exhausted c g tr =>
    if rms (unweight_vec ctx.m_sqrt g) ≤ 5 * ctx.rms_grad_thresh then
      { mw_coords := c
        converged := true
        endpointEvals := 0
        endpointHessUpdates := 0
        endpointDwiUpdates := 0
        eulerStepLen := euler_step_length ctx.m_sqrt (ctx.calcGrad ctx.mw_coords)
          ctx.step_length ctx.max_pred_steps
        eulerPath := tr
        dwiSample := none
        corrRes := none }
    else
      predictorDownstream ctx corrFuel ctx.mw_coords c
        (euler_step_length ctx.m_sqrt (ctx.calcGrad ctx.mw_coords) ctx.step_length
          ctx.max_pred_steps) tr

/-! ## Pre-predictor Hessian treatment (EulerPC.py lines 77-87) -/

/-- Which Hessian enters the predictor on this macro-step. -/
inductive HessStep (n : ℕ) where
  | first (H : Matrix (Fin n) (Fin n) ℝ)
  | exact (H : Matrix (Fin n) (Fin n) ℝ)
  | updated (dx dg : Vec n) (H : Matrix (Fin n) (Fin n) ℝ)

/-- The Python truthiness test
`self.hessian_recalc and (self.cur_cycle % self.hessian_recalc == 0)`
(EulerPC.py line 78): `None` and `0` are falsy. -/
def recalcNow (hessian_recalc : Option ℕ) (cur_cycle : ℕ) : Bool :=
  match hessian_recalc with
  | none => false
  | some m => m != 0 && cur_cycle % m == 0

/-- EulerPC.py lines 77-86: on cycles after the first, either recompute the
exact Hessian (every `hessian_recalc` cycles) or apply the configured
quasi-Newton update built from the differences to the previous IRC point.
Modelled from the spec: `prev_mw_coords`/`prev_mw_grad` stand for
`self.irc_mw_coords[-2]`/`self.irc_mw_gradients[-2]`, the previous IRC
point's data recorded by the `IRC` base class (not in the sources). -/
def predictor_hessian {n : ℕ} (cur_cycle : ℕ) (hessian_recalc : Option ℕ)
    (mw_H exactH : Matrix (Fin n) (Fin n) ℝ)
    (hessUpd : Matrix (Fin n) (Fin n) ℝ → Vec n → Vec n → Matrix (Fin n) (Fin n) ℝ)
    (mw_coords prev_mw_coords mw_grad prev_mw_grad : Vec n) : HessStep n :=
  if 0 < cur_cycle then
    if recalcNow hessian_recalc cur_cycle then .exact exactH
    else
      .updated (fun i => mw_coords i - prev_mw_coords i)
        (fun i => mw_grad i - prev_mw_grad i)
        (mw_H + hessUpd mw_H (fun i => mw_coords i - prev_mw_coords i)
          (fun i => mw_grad i - prev_mw_grad i))
  else .first mw_H

/-! ### Euler loop lemmas -/

section EulerLemmas

variable {n : ℕ} {m_sqrt mw_grad0 : Vec n} {mw_H : Matrix (Fin n) (Fin n) ℝ}
variable {sl h : ℝ} {init : Vec n}

theorem eulerLoop_zero (coords grad : Vec n) (tr : List (Vec n)) :
    eulerLoop m_sqrt mw_grad0 mw_H sl h init 0 coords grad tr
      = .exhausted coords grad tr := rfl

theorem eulerLoop_succ_reached {fuel : ℕ} {coords grad : Vec n} {tr : List (Vec n)}
    (hr : sl ≤ get_integration_length m_sqrt init coords) :
    eulerLoop m_sqrt mw_grad0 mw_H sl h init (fuel + 1) coords grad tr
      = .reached coords grad (tr ++ [coords]) := by
  rw [eulerLoop, if_pos hr]

theorem eulerLoop_succ_cont {fuel : ℕ} {coords grad : Vec n} {tr : List (Vec n)}
    (hr : ¬ sl ≤ get_integration_length m_sqrt init coords) :
    eulerLoop m_sqrt mw_grad0 mw_H sl h init (fuel + 1) coords grad tr
      = eulerLoop m_sqrt mw_grad0 mw_H sl h init fuel
        (fun i => coords i + h * -grad i / npNorm grad)
        (taylor_gradient mw_grad0 mw_H
          (fun i => (coords i + h * -grad i / npNorm grad) - init i))
        (tr ++ [coords]) := by
  rw [eulerLoop, if_neg hr]

/-- One Euler sub-step changes the integration length by at most
`h / μ` when the square-root masses are bounded below by `μ`. -/
theorem euler_len_change_le (coords grad : Vec n) {μ : ℝ}
    (hμ : 0 < μ) (hm : ∀ i, μ ≤ m_sqrt i) (hh : 0 ≤ h) :
    |get_integration_length m_sqrt init (fun i => coords i + h * -grad i / npNorm grad)
      - get_integration_length m_sqrt init coords| ≤ h / μ := by
  unfold get_integration_length
  have hsplit : (fun i => (fun j => coords j + h * -grad j / npNorm grad) i - init i)
      = fun i => (coords i - init i) + (h * -grad i / npNorm grad) := by
    funext i
    ring
  have hu : unweight_vec m_sqrt
      (fun i => (coords i - init i) + (h * -grad i / npNorm grad))
      = fun i => unweight_vec m_sqrt (fun j => coords j - init j) i
        + unweight_vec m_sqrt (fun j => h * -grad j / npNorm grad) i := by
    funext i
    unfold unweight_vec
    ring
  rw [hsplit, hu]
  refine le_trans (npNorm_add_le_abs (unweight_vec m_sqrt (fun j => coords j - init j))
    (unweight_vec m_sqrt (fun j => h * -grad j / npNorm grad))) ?_
  refine le_trans (npNorm_unweight_le hμ hm) ?_
  have h3 : npNorm (fun j => h * -grad j / npNorm grad) ≤ h :=
    (npNorm_normalized_step_le h grad).trans_eq (abs_of_nonneg hh)
  gcongr

/-- Consecutive visited predictor points change the integration length by at
most `h / μ` (it need not be monotone). -/
theorem eulerLoop_chain {μ : ℝ} (hμ : 0 < μ) (hm : ∀ i, μ ≤ m_sqrt i) (hh : 0 ≤ h) :
    ∀ (fuel : ℕ) (coords grad : Vec n) (tr : List (Vec n)),
    List.Chain' (fun a b => |get_integration_length m_sqrt init b
      - get_integration_length m_sqrt init a| ≤ h / μ) (tr ++ [coords]) →
    List.Chain' (fun a b => |get_integration_length m_sqrt init b
      - get_integration_length m_sqrt init a| ≤ h / μ)
      (eulerTrace (eulerLoop m_sqrt mw_grad0 mw_H sl h init fuel coords grad tr)
        ++ [eulerCoords (eulerLoop m_sqrt mw_grad0 mw_H sl h init fuel coords grad tr)]) := by
  intro fuel
  induction fuel with
  | zero =>
    intro coords grad tr hchain
    rw [eulerLoop_zero]
    exact hchain
  | succ fuel ih =>
    intro coords grad tr hchain
    by_cases hr : sl ≤ get_integration_length m_sqrt init coords
    · rw [eulerLoop_succ_reached hr]
      show List.Chain' _ ((tr ++ [coords]) ++ [coords])
      rw [List.chain'_append]
      refine ⟨hchain, List.chain'_singleton _, ?_⟩
      intro x hx y hy
      rw [List.getLast?_concat] at hx
      rw [Option.mem_def, Option.some_inj] at hx
      simp only [List.head?_cons, Option.mem_def, Option.some_inj] at hy
      subst hx
      subst hy
      rw [sub_self, abs_zero]
      exact div_nonneg hh hμ.le
    · rw [eulerLoop_succ_cont hr]
      apply ih
      rw [List.chain'_append]
      refine ⟨hchain, List.chain'_singleton _, ?_⟩
      intro x hx y hy
      rw [List.getLast?_concat] at hx
      rw [Option.mem_def, Option.some_inj] at hx
      simp only [List.head?_cons, Option.mem_def, Option.some_inj] at hy
      subst hx
      subst hy
      exact euler_len_change_le coords grad hμ hm hh

/-- When the loop exits through the reached-target break, the final
integration length lies in `[sl, sl + h/μ)`. -/
theorem eulerLoop_reached_bound {μ : ℝ} (hμ : 0 < μ) (hm : ∀ i, μ ≤ m_sqrt i)
    (hh : 0 ≤ h) :
    ∀ (fuel : ℕ) (coords grad : Vec n) (tr : List (Vec n)) (c g : Vec n)
      (tr' : List (Vec n)),
    get_integration_length m_sqrt init coords < sl + h / μ →
    eulerLoop m_sqrt mw_grad0 mw_H sl h init fuel coords grad tr = .reached c g tr' →
    sl ≤ get_integration_length m_sqrt init c ∧
      get_integration_length m_sqrt init c < sl + h / μ := by
  intro fuel
  induction fuel with
  | zero =>
    intro coords grad tr c g tr' _ heq
    rw [eulerLoop_zero] at heq
    simp at heq
  | succ fuel ih =>
    intro coords grad tr c g tr' hlt heq
    by_cases hr : sl ≤ get_integration_length m_sqrt init coords
    · rw [eulerLoop_succ_reached hr] at heq
      obtain ⟨hc, -, -⟩ := EulerRes.reached.injEq .. ▸ heq
      subst hc
      exact ⟨hr, hlt⟩
    · rw [eulerLoop_succ_cont hr] at heq
      refine ih _ _ _ _ _ _ ?_ heq
      have hb : |get_integration_length m_sqrt init
          (fun i => coords i + h * -grad i / npNorm grad)
          - get_integration_length m_sqrt init coords| ≤ h / μ :=
        euler_len_change_le coords grad hμ hm hh
      rw [abs_sub_le_iff] at hb
      have hlt2 : get_integration_length m_sqrt init coords < sl := lt_of_not_le hr
      linarith [hb.1]

end EulerLemmas

/-! ### Claim theorems about the predictor -/

/-- C5: the per-step Euler displacement magnitude of every predictor phase
is `euler_step_length = step_length / (max_pred_steps / conv_fact)` with
`conv_fact = max(2, ‖unweighted gradient‖ / ‖mass-weighted gradient‖)`,
where the gradient is the calculator gradient at the macro-step's start
point; each sub-step built from a nonzero gradient displaces by exactly that
magnitude. -/
theorem predictor_euler_step_length {n : ℕ} (ctx : PredCtx n) (corrFuel : ℕ)
    (g : Vec n) (hg : g ≠ 0) (hsl : 0 < ctx.step_length)
    (hms : 0 < ctx.max_pred_steps) :
    (step ctx corrFuel).eulerStepLen
      = ctx.step_length / ((ctx.max_pred_steps : ℝ)
        / max 2 (npNorm (unweight_vec ctx.m_sqrt (ctx.calcGrad ctx.mw_coords))
          / npNorm (ctx.calcGrad ctx.mw_coords))) ∧
    npNorm (fun i => (step ctx corrFuel).eulerStepLen * -g i / npNorm g)
      = (step ctx corrFuel).eulerStepLen := by
  have h1 : (step ctx corrFuel).eulerStepLen
      = euler_step_length ctx.m_sqrt (ctx.calcGrad ctx.mw_coords) ctx.step_length
        ctx.max_pred_steps := by
    unfold step
    cases heq : eulerLoop ctx.m_sqrt (ctx.calcGrad ctx.mw_coords) ctx.mw_H
        ctx.step_length
        (euler_step_length ctx.m_sqrt (ctx.calcGrad ctx.mw_coords) ctx.step_length
          ctx.max_pred_steps)
        ctx.mw_coords ctx.max_pred_steps ctx.mw_coords (ctx.calcGrad ctx.mw_coords) [] with
    | reached c g tr => simp [predictorDownstream]
    | exhausted c g tr =>
      by_cases hr : rms (unweight_vec ctx.m_sqrt g) ≤ 5 * ctx.rms_grad_thresh
      · simp [hr]
      · simp [hr, predictorDownstream]
  have hpos : 0 < euler_step_length ctx.m_sqrt (ctx.calcGrad ctx.mw_coords)
      ctx.step_length ctx.max_pred_steps := by
    unfold euler_step_length
    apply div_pos hsl
    apply div_pos (by exact_mod_cast hms)
    exact lt_of_lt_of_le two_pos (le_max_left _ _)
  constructor
  · rw [h1]
    rfl
  · rw [h1, npNorm_normalized_step _ hg, abs_of_nonneg hpos.le]

/-- C6: when the predictor Euler loop exhausts `max_pred_steps` without
reaching the target arc length, no error is raised: with the Taylor-model
RMS gradient within `5 ×` the convergence threshold the step declares
convergence and terminates early (no endpoint evaluation, no corrector);
otherwise the reached point is accepted and the downstream evaluation,
Hessian update, DWI update and corrector all run from it. -/
theorem predictor_exhaustion_behavior {n : ℕ} (ctx : PredCtx n) (corrFuel : ℕ)
    (c g : Vec n) (tr : List (Vec n))
    (heul : eulerLoop ctx.m_sqrt (ctx.calcGrad ctx.mw_coords) ctx.mw_H ctx.step_length
      (euler_step_length ctx.m_sqrt (ctx.calcGrad ctx.mw_coords) ctx.step_length
        ctx.max_pred_steps)
      ctx.mw_coords ctx.max_pred_steps ctx.mw_coords (ctx.calcGrad ctx.mw_coords) []
      = .exhausted c g tr) :
    (rms (unweight_vec ctx.m_sqrt g) ≤ 5 * ctx.rms_grad_thresh →
      step ctx corrFuel =
        { mw_coords := c, converged := true, endpointEvals := 0,
          endpointHessUpdates := 0, endpointDwiUpdates := 0,
          eulerStepLen := euler_step_length ctx.m_sqrt (ctx.calcGrad ctx.mw_coords)
            ctx.step_length ctx.max_pred_steps,
          eulerPath := tr, dwiSample := none, corrRes := none }) ∧
    (¬ rms (unweight_vec ctx.m_sqrt g) ≤ 5 * ctx.rms_grad_thresh →
      step ctx corrFuel = predictorDownstream ctx corrFuel ctx.mw_coords c
        (euler_step_length ctx.m_sqrt (ctx.calcGrad ctx.mw_coords) ctx.step_length
          ctx.max_pred_steps) tr ∧
      (step ctx corrFuel).converged = false ∧
      (step ctx corrFuel).endpointEvals = 1 ∧
      (step ctx corrFuel).corrRes = some (corrector_step
        ⟨ctx.m_sqrt, ctx.dwiGradAfter, ctx.step_length⟩ ctx.mw_coords corrFuel)) := by
  constructor
  · intro hr
    unfold step
    simp only [heul]
    rw [if_pos hr]
  · intro hr
    have hstep : step ctx corrFuel = predictorDownstream ctx corrFuel ctx.mw_coords c
        (euler_step_length ctx.m_sqrt (ctx.calcGrad ctx.mw_coords) ctx.step_length
          ctx.max_pred_steps) tr := by
      unfold step
      simp only [heul]
      rw [if_neg hr]
    refine ⟨hstep, ?_, ?_, ?_⟩ <;> rw [hstep] <;> rfl

/-- C7 (amended): across successive Euler sub-steps the integration length
(the distance from the start point in un-mass-weighted space) changes by at
most `euler_step_length / μ` for masses with square roots bounded below by
`μ` — it need not be non-decreasing — and when the loop exits by reaching
the target, the final length lies within one such bound of `step_length`,
in `[step_length, step_length + euler_step_length/μ)`. -/
theorem predictor_arc_length_behavior {n : ℕ} (ctx : PredCtx n) (μ : ℝ)
    (hμ : 0 < μ) (hm : ∀ i, μ ≤ ctx.m_sqrt i)
    (hh : 0 ≤ euler_step_length ctx.m_sqrt (ctx.calcGrad ctx.mw_coords)
      ctx.step_length ctx.max_pred_steps)
    (hsl : 0 < ctx.step_length) :
    List.Chain' (fun a b =>
      |get_integration_length ctx.m_sqrt ctx.mw_coords b
        - get_integration_length ctx.m_sqrt ctx.mw_coords a|
      ≤ euler_step_length ctx.m_sqrt (ctx.calcGrad ctx.mw_coords) ctx.step_length
          ctx.max_pred_steps / μ)
      (eulerTrace (eulerLoop ctx.m_sqrt (ctx.calcGrad ctx.mw_coords) ctx.mw_H
          ctx.step_length
          (euler_step_length ctx.m_sqrt (ctx.calcGrad ctx.mw_coords) ctx.step_length
            ctx.max_pred_steps)
          ctx.mw_coords ctx.max_pred_steps ctx.mw_coords (ctx.calcGrad ctx.mw_coords) [])
        ++ [eulerCoords (eulerLoop ctx.m_sqrt (ctx.calcGrad ctx.mw_coords) ctx.mw_H
          ctx.step_length
          (euler_step_length ctx.m_sqrt (ctx.calcGrad ctx.mw_coords) ctx.step_length
            ctx.max_pred_steps)
          ctx.mw_coords ctx.max_pred_steps ctx.mw_coords (ctx.calcGrad ctx.mw_coords) [])]) ∧
    (∀ c g tr,
      eulerLoop ctx.m_sqrt (ctx.calcGrad ctx.mw_coords) ctx.mw_H ctx.step_length
        (euler_step_length ctx.m_sqrt (ctx.calcGrad ctx.mw_coords) ctx.step_length
          ctx.max_pred_steps)
        ctx.mw_coords ctx.max_pred_steps ctx.mw_coords (ctx.calcGrad ctx.mw_coords) []
        = .reached c g tr →
      ctx.step_length ≤ get_integration_length ctx.m_sqrt ctx.mw_coords c ∧
      get_integration_length ctx.m_sqrt ctx.mw_coords c < ctx.step_length
        + euler_step_length ctx.m_sqrt (ctx.calcGrad ctx.mw_coords) ctx.step_length
            ctx.max_pred_steps / μ) := by
  have hlen0 : get_integration_length ctx.m_sqrt ctx.mw_coords ctx.mw_coords = 0 := by
    unfold get_integration_length
    have hz : (fun i => unweight_vec ctx.m_sqrt
        (fun j => ctx.mw_coords j - ctx.mw_coords j) i) = (0 : Vec n) := by
      funext i
      simp [unweight_vec]
    rw [show unweight_vec ctx.m_sqrt (fun j => ctx.mw_coords j - ctx.mw_coords j)
      = (0 : Vec n) from hz, npNorm_zero]
  constructor
  · apply eulerLoop_chain hμ hm hh
    simp
  · intro c g tr heq
    refine eulerLoop_reached_bound hμ hm hh _ _ _ _ _ _ _ ?_ heq
    rw [hlen0]
    have : 0 ≤ euler_step_length ctx.m_sqrt (ctx.calcGrad ctx.mw_coords)
        ctx.step_length ctx.max_pred_steps / μ := div_nonneg hh hμ.le
    linarith

/-- C8 (amended): every predictor phase that does not exit early through the
exhausted-but-converged path performs exactly one calculator evaluation at
the reached endpoint, one Hessian update from that endpoint's data, and one
DWI update whose sample is the endpoint's coordinates, energy, gradient and
updated Hessian, and then runs the corrector. -/
theorem predictor_endpoint_effects {n : ℕ} (ctx : PredCtx n) (corrFuel : ℕ)
    (h : (step ctx corrFuel).converged = false) :
    (step ctx corrFuel).endpointEvals = 1 ∧
    (step ctx corrFuel).endpointHessUpdates = 1 ∧
    (step ctx corrFuel).endpointDwiUpdates = 1 ∧
    (∃ c, (step ctx corrFuel).dwiSample = some
      ⟨c, ctx.calcEnergy c, ctx.calcGrad c,
        ctx.mw_H + ctx.hessUpd ctx.mw_H
          (fun i => c i - ctx.irc_last_mw_coords i)
          (fun i => ctx.calcGrad c i - ctx.irc_last_mw_gradient i)⟩) ∧
    (step ctx corrFuel).corrRes = some (corrector_step
      ⟨ctx.m_sqrt, ctx.dwiGradAfter, ctx.step_length⟩ ctx.mw_coords corrFuel) := by
  unfold step at h ⊢
  cases heq : eulerLoop ctx.m_sqrt (ctx.calcGrad ctx.mw_coords) ctx.mw_H ctx.step_length
      (euler_step_length ctx.m_sqrt (ctx.calcGrad ctx.mw_coords) ctx.step_length
        ctx.max_pred_steps)
      ctx.mw_coords ctx.max_pred_steps ctx.mw_coords (ctx.calcGrad ctx.mw_coords) [] with
  | reached c g tr =>
    simp only [heq]
    exact ⟨rfl, rfl, rfl, ⟨c, rfl⟩, rfl⟩
  | exhausted c g tr =>
    simp only [heq] at h ⊢
    by_cases hr : rms (unweight_vec ctx.m_sqrt g) ≤ 5 * ctx.rms_grad_thresh
    · rw [if_pos hr] at h
      simp at h
    · rw [if_neg hr]
      exact ⟨rfl, rfl, rfl, ⟨c, rfl⟩, rfl⟩

/-- C9: with a configured recalculation interval `m ≥ 1`, every macro-step
whose cycle is a positive multiple of `m` replaces the quasi-Newton update
by the exact Hessian, and every other macro-step after the first applies the
configured quasi-Newton update built from the coordinate and gradient
differences to the previous IRC point. -/
theorem hessian_recalc_dispatch {n : ℕ} (cur_cycle m : ℕ)
    (mw_H exactH : Matrix (Fin n) (Fin n) ℝ)
    (hessUpd : Matrix (Fin n) (Fin n) ℝ → Vec n → Vec n → Matrix (Fin n) (Fin n) ℝ)
    (mw_coords prev_mw_coords mw_grad prev_mw_grad : Vec n)
    (hc : 0 < cur_cycle) (hm : 1 ≤ m) :
    ((∃ q, 0 < q ∧ cur_cycle = q * m) →
      predictor_hessian cur_cycle (some m) mw_H exactH hessUpd
        mw_coords prev_mw_coords mw_grad prev_mw_grad = .exact exactH) ∧
    ((∀ q, 0 < q → cur_cycle ≠ q * m) →
      predictor_hessian cur_cycle (some m) mw_H exactH hessUpd
        mw_coords prev_mw_coords mw_grad prev_mw_grad =
      .updated (fun i => mw_coords i - prev_mw_coords i)
        (fun i => mw_grad i - prev_mw_grad i)
        (mw_H + hessUpd mw_H (fun i => mw_coords i - prev_mw_coords i)
          (fun i => mw_grad i - prev_mw_grad i))) := by
  constructor
  · rintro ⟨q, hq, rfl⟩
    have hrec : recalcNow (some m) (q * m) = true := by
      simp [recalcNow, Nat.mul_mod_left]
      omega
    unfold predictor_hessian
    rw [if_pos hc, if_pos hrec]
  · intro hq
    have hmod : cur_cycle % m ≠ 0 := by
      intro hmod
      obtain ⟨q, hq'⟩ := Nat.dvd_of_mod_eq_zero hmod
      have hq0 : 0 < q := by
        rcases Nat.eq_zero_or_pos q with h0 | h0
        · subst h0; omega
        · exact h0
      exact hq q hq0 (by rw [hq', Nat.mul_comm])
    have hrec : recalcNow (some m) cur_cycle = false := by
      have hb : (cur_cycle % m == 0) = false := beq_eq_false_iff_ne.mpr hmod
      simp [recalcNow, hb]
    unfold predictor_hessian
    rw [if_pos hc, hrec]
    simp

/-! ### Concrete predictor runs -/

theorem unweight_konst_one (x : ℝ) : unweight_vec (konst 1) (konst x) = konst x := by
  funext i
  simp [unweight_vec, konst]

theorem rms_konst (x : ℝ) : rms (konst x) = |x| := by
  unfold rms konst
  rw [Fin.sum_univ_one]
  norm_num [Real.sqrt_sq_eq_abs]

theorem conv_fact_ones : conv_fact (konst 1) (konst 1) = 2 := by
  unfold conv_fact
  rw [unweight_konst_one, npNorm_konst]
  norm_num

theorem mulVec_two (v : Vec 1) :
    (!![(2 : ℝ)]).mulVec v = konst (2 * v 0) := by
  funext i
  have hi : i = 0 := Subsingleton.elim i 0
  subst hi
  simp [Matrix.mulVec, Matrix.dotProduct, Fin.sum_univ_one, konst]

theorem taylorA (x : ℝ) :
    taylor_gradient (konst 1) !![(2 : ℝ)] (konst x) = konst (1 + 2 * x) := by
  funext i
  unfold taylor_gradient
  rw [mulVec_two]
  simp [konst]

theorem euler_substep_down (x : ℝ) :
    (fun i : Fin 1 => konst x i + 1 * -konst 1 i / npNorm (konst 1)) = konst (x - 1) := by
  funext i
  rw [npNorm_konst]
  norm_num [konst]
  ring

theorem euler_substep_down_arg (x : ℝ) :
    (fun i : Fin 1 => (konst x i + 1 * -konst 1 i / npNorm (konst 1)) - konst 0 i)
      = konst (x - 1) := by
  funext i
  rw [npNorm_konst]
  norm_num [konst]
  ring

theorem euler_substep_up (x : ℝ) :
    (fun i : Fin 1 => konst x i + 1 * -konst (-1) i / npNorm (konst (-1)))
      = konst (x + 1) := by
  funext i
  rw [npNorm_konst]
  norm_num [konst]

theorem euler_substep_up_arg (x : ℝ) :
    (fun i : Fin 1 => (konst x i + 1 * -konst (-1) i / npNorm (konst (-1))) - konst 0 i)
      = konst (x + 1) := by
  funext i
  rw [npNorm_konst]
  norm_num [konst]

/-- Predictor context whose Taylor model flips the gradient sign on every
sub-step, so the Euler walk oscillates between `0` and `-1` and exhausts its
budget without ever reaching the target arc length `2`. -/
def ctxPredA : PredCtx 1 :=
  { m_sqrt := konst 1
    mw_coords := konst 0
    calcGrad := fun _ => konst 1
    calcEnergy := fun _ => 0
    mw_H := !![2]
    step_length := 2
    max_pred_steps := 4
    rms_grad_thresh := 1
    irc_last_mw_coords := konst 0
    irc_last_mw_gradient := konst 0
    hessUpd := fun _ _ _ => 0
    dwiGradAfter := fun _ => konst 1 }

theorem hstepA : euler_step_length (konst 1) (konst 1) 2 4 = 1 := by
  unfold euler_step_length
  rw [conv_fact_ones]
  norm_num

theorem taylorA_neg : taylor_gradient (konst 1) !![(2 : ℝ)] (konst (-1)) = konst (-1) := by
  rw [taylorA]
  exact congrArg konst (by norm_num)

theorem taylorA_zero : taylor_gradient (konst 1) !![(2 : ℝ)] (konst 0) = konst 1 := by
  rw [taylorA]
  exact congrArg konst (by norm_num)

theorem eulerA_run :
    eulerLoop (konst 1) (konst 1) !![2] 2 1 (konst 0) 4 (konst 0) (konst 1) []
      = .exhausted (konst 0) (konst 1) [konst 0, konst (-1), konst 0, konst (-1)] := by
  have hl0 : ¬ ((2 : ℝ) ≤ get_integration_length (konst 1) (konst 0) (konst 0)) := by
    rw [intLen_konst]
    norm_num
  have hl1 : ¬ ((2 : ℝ) ≤ get_integration_length (konst 1) (konst 0) (konst (-1))) := by
    rw [intLen_konst]
    norm_num
  rw [eulerLoop_succ_cont hl0,
    show (fun i : Fin 1 => konst 0 i + 1 * -konst 1 i / npNorm (konst 1)) = konst (-1) by
      rw [euler_substep_down]; exact congrArg konst (by norm_num),
    show (fun i : Fin 1 => (konst 0 i + 1 * -konst 1 i / npNorm (konst 1)) - konst 0 i)
        = konst (-1) by
      rw [euler_substep_down_arg]; exact congrArg konst (by norm_num),
    taylorA_neg]
  rw [eulerLoop_succ_cont hl1,
    show (fun i : Fin 1 => konst (-1) i + 1 * -konst (-1) i / npNorm (konst (-1)))
        = konst 0 by
      rw [euler_substep_up]; exact congrArg konst (by norm_num),
    show (fun i : Fin 1 => (konst (-1) i + 1 * -konst (-1) i / npNorm (konst (-1)))
        - konst 0 i) = konst 0 by
      rw [euler_substep_up_arg]; exact congrArg konst (by norm_num),
    taylorA_zero]
  rw [eulerLoop_succ_cont hl0,
    show (fun i : Fin 1 => konst 0 i + 1 * -konst 1 i / npNorm (konst 1)) = konst (-1) by
      rw [euler_substep_down]; exact congrArg konst (by norm_num),
    show (fun i : Fin 1 => (konst 0 i + 1 * -konst 1 i / npNorm (konst 1)) - konst 0 i)
        = konst (-1) by
      rw [euler_substep_down_arg]; exact congrArg konst (by norm_num),
    taylorA_neg]
  rw [eulerLoop_succ_cont hl1,
    show (fun i : Fin 1 => konst (-1) i + 1 * -konst (-1) i / npNorm (konst (-1)))
        = konst 0 by
      rw [euler_substep_up]; exact congrArg konst (by norm_num),
    show (fun i : Fin 1 => (konst (-1) i + 1 * -konst (-1) i / npNorm (konst (-1)))
        - konst 0 i) = konst 0 by
      rw [euler_substep_up_arg]; exact congrArg konst (by norm_num),
    taylorA_zero]
  rw [eulerLoop_zero]
  rfl

theorem stepA_run : step ctxPredA 0 =
    { mw_coords := konst 0, converged := true, endpointEvals := 0,
      endpointHessUpdates := 0, endpointDwiUpdates := 0, eulerStepLen := 1,
      eulerPath := [konst 0, konst (-1), konst 0, konst (-1)],
      dwiSample := none, corrRes := none } := by
  unfold step
  simp only [ctxPredA]
  rw [hstepA]
  simp only [eulerA_run]
  rw [if_pos (by rw [unweight_konst_one, rms_konst]; norm_num)]

/-- Counterexample to C7 as stated: in the sign-flipping quadratic model the
predictor's integration length along the visited points is `0, 1, 0, 1` —
not non-decreasing. -/
theorem predictor_arc_length_claim_counterexample :
    ¬ List.Chain' (fun a b => get_integration_length ctxPredA.m_sqrt ctxPredA.mw_coords a
      ≤ get_integration_length ctxPredA.m_sqrt ctxPredA.mw_coords b)
      ((step ctxPredA 0).eulerPath) := by
  have hpath : (step ctxPredA 0).eulerPath
      = [konst 0, konst (-1), konst 0, konst (-1)] := by
    rw [stepA_run]
  rw [hpath]
  intro hch
  have h2 := (List.chain'_cons.mp (List.chain'_cons.mp hch).2).1
  have e1 : get_integration_length ctxPredA.m_sqrt ctxPredA.mw_coords (konst (-1)) = 1 := by
    show get_integration_length (konst 1) (konst 0) (konst (-1)) = 1
    rw [intLen_konst]
    norm_num
  have e2 : get_integration_length ctxPredA.m_sqrt ctxPredA.mw_coords (konst 0) = 0 := by
    show get_integration_length (konst 1) (konst 0) (konst 0) = 0
    rw [intLen_konst]
    norm_num
  rw [e1, e2] at h2
  norm_num at h2

/-- Counterexample to C8 as stated: the exhausted-but-converged predictor
phase performs zero endpoint evaluations, Hessian updates and DWI updates. -/
theorem predictor_endpoint_effects_claim_counterexample :
    (step ctxPredA 0).endpointEvals = 0 ∧
    (step ctxPredA 0).endpointHessUpdates = 0 ∧
    (step ctxPredA 0).endpointDwiUpdates = 0 ∧
    (step ctxPredA 0).converged = true := by
  rw [stepA_run]
  exact ⟨rfl, rfl, rfl, rfl⟩

/-- Witness for C5 at the oscillating context. -/
theorem predictor_euler_step_length_witness :
    (step ctxPredA 0).eulerStepLen
      = ctxPredA.step_length / ((ctxPredA.max_pred_steps : ℝ)
        / max 2 (npNorm (unweight_vec ctxPredA.m_sqrt
            (ctxPredA.calcGrad ctxPredA.mw_coords))
          / npNorm (ctxPredA.calcGrad ctxPredA.mw_coords))) ∧
    npNorm (fun i => (step ctxPredA 0).eulerStepLen * -konst 1 i / npNorm (konst 1))
      = (step ctxPredA 0).eulerStepLen :=
  predictor_euler_step_length ctxPredA 0 (konst 1) (konst_ne_zero one_ne_zero)
    (by norm_num [ctxPredA]) (by norm_num [ctxPredA])

/-- Witness for C6: the oscillating context exhausts its Euler budget with a
small Taylor-model RMS gradient and the step declares convergence without
endpoint side effects. -/
theorem predictor_exhaustion_behavior_witness :
    rms (unweight_vec ctxPredA.m_sqrt (konst 1)) ≤ 5 * ctxPredA.rms_grad_thresh ∧
    step ctxPredA 0 =
      { mw_coords := konst 0, converged := true, endpointEvals := 0,
        endpointHessUpdates := 0, endpointDwiUpdates := 0,
        eulerStepLen := euler_step_length ctxPredA.m_sqrt
          (ctxPredA.calcGrad ctxPredA.mw_coords) ctxPredA.step_length
          ctxPredA.max_pred_steps,
        eulerPath := [konst 0, konst (-1), konst 0, konst (-1)],
        dwiSample := none, corrRes := none } := by
  have hrms : rms (unweight_vec ctxPredA.m_sqrt (konst 1))
      ≤ 5 * ctxPredA.rms_grad_thresh := by
    show rms (unweight_vec (konst 1) (konst 1)) ≤ 5 * 1
    rw [unweight_konst_one, rms_konst]
    norm_num
  have heul : eulerLoop ctxPredA.m_sqrt (ctxPredA.calcGrad ctxPredA.mw_coords)
      ctxPredA.mw_H ctxPredA.step_length
      (euler_step_length ctxPredA.m_sqrt (ctxPredA.calcGrad ctxPredA.mw_coords)
        ctxPredA.step_length ctxPredA.max_pred_steps)
      ctxPredA.mw_coords ctxPredA.max_pred_steps ctxPredA.mw_coords
      (ctxPredA.calcGrad ctxPredA.mw_coords) []
      = .exhausted (konst 0) (konst 1) [konst 0, konst (-1), konst 0, konst (-1)] := by
    show eulerLoop (konst 1) (konst 1) !![2] 2 (euler_step_length (konst 1) (konst 1) 2 4)
      (konst 0) 4 (konst 0) (konst 1) [] = _
    rw [hstepA]
    exact eulerA_run
  exact ⟨hrms,
    (predictor_exhaustion_behavior ctxPredA 0 (konst 0) (konst 1) _ heul).1 hrms⟩

/-- Witness for the amended C7 at the oscillating context with `μ = 1`. -/
theorem predictor_arc_length_behavior_witness :
    List.Chain' (fun a b =>
      |get_integration_length ctxPredA.m_sqrt ctxPredA.mw_coords b
        - get_integration_length ctxPredA.m_sqrt ctxPredA.mw_coords a|
      ≤ euler_step_length ctxPredA.m_sqrt (ctxPredA.calcGrad ctxPredA.mw_coords)
          ctxPredA.step_length ctxPredA.max_pred_steps / 1)
      (eulerTrace (eulerLoop ctxPredA.m_sqrt (ctxPredA.calcGrad ctxPredA.mw_coords)
          ctxPredA.mw_H ctxPredA.step_length
          (euler_step_length ctxPredA.m_sqrt (ctxPredA.calcGrad ctxPredA.mw_coords)
            ctxPredA.step_length ctxPredA.max_pred_steps)
          ctxPredA.mw_coords ctxPredA.max_pred_steps ctxPredA.mw_coords
          (ctxPredA.calcGrad ctxPredA.mw_coords) [])
        ++ [eulerCoords (eulerLoop ctxPredA.m_sqrt (ctxPredA.calcGrad ctxPredA.mw_coords)
          ctxPredA.mw_H ctxPredA.step_length
          (euler_step_length ctxPredA.m_sqrt (ctxPredA.calcGrad ctxPredA.mw_coords)
            ctxPredA.step_length ctxPredA.max_pred_steps)
          ctxPredA.mw_coords ctxPredA.max_pred_steps ctxPredA.mw_coords
          (ctxPredA.calcGrad ctxPredA.mw_coords) [])]) ∧
    (∀ c g tr,
      eulerLoop ctxPredA.m_sqrt (ctxPredA.calcGrad ctxPredA.mw_coords) ctxPredA.mw_H
        ctxPredA.step_length
        (euler_step_length ctxPredA.m_sqrt (ctxPredA.calcGrad ctxPredA.mw_coords)
          ctxPredA.step_length ctxPredA.max_pred_steps)
        ctxPredA.mw_coords ctxPredA.max_pred_steps ctxPredA.mw_coords
        (ctxPredA.calcGrad ctxPredA.mw_coords) []
        = .reached c g tr →
      ctxPredA.step_length ≤ get_integration_length ctxPredA.m_sqrt ctxPredA.mw_coords c ∧
      get_integration_length ctxPredA.m_sqrt ctxPredA.mw_coords c < ctxPredA.step_length
        + euler_step_length ctxPredA.m_sqrt (ctxPredA.calcGrad ctxPredA.mw_coords)
            ctxPredA.step_length ctxPredA.max_pred_steps / 1) :=
  predictor_arc_length_behavior ctxPredA 1 one_pos (fun _ => le_refl 1)
    (by
      show (0 : ℝ) ≤ euler_step_length (konst 1) (konst 1) 2 4
      rw [hstepA]
      norm_num)
    (by norm_num [ctxPredA])

/-- Predictor context with a constant gradient model: the Euler walk reaches
the target in one step and the downstream endpoint processing runs. -/
def ctxPredB : PredCtx 1 :=
  { m_sqrt := konst 1
    mw_coords := konst 0
    calcGrad := fun _ => konst 1
    calcEnergy := fun _ => 0
    mw_H := 0
    step_length := 1
    max_pred_steps := 2
    rms_grad_thresh := 1
    irc_last_mw_coords := konst 0
    irc_last_mw_gradient := konst 0
    hessUpd := fun _ _ _ => 0
    dwiGradAfter := fun _ => konst 1 }

theorem hstepB : euler_step_length (konst 1) (konst 1) 1 2 = 1 := by
  unfold euler_step_length
  rw [conv_fact_ones]
  norm_num

theorem taylorB_neg :
    taylor_gradient (konst 1) (0 : Matrix (Fin 1) (Fin 1) ℝ) (konst (-1)) = konst 1 := by
  funext i
  unfold taylor_gradient
  simp [Matrix.zero_mulVec, konst]

theorem eulerB_run :
    eulerLoop (konst 1) (konst 1) (0 : Matrix (Fin 1) (Fin 1) ℝ) 1 1 (konst 0) 2
      (konst 0) (konst 1) [] = .reached (konst (-1)) (konst 1) [konst 0, konst (-1)] := by
  have hl0 : ¬ ((1 : ℝ) ≤ get_integration_length (konst 1) (konst 0) (konst 0)) := by
    rw [intLen_konst]
    norm_num
  have hr1 : (1 : ℝ) ≤ get_integration_length (konst 1) (konst 0) (konst (-1)) := by
    rw [intLen_konst]
    norm_num
  rw [eulerLoop_succ_cont hl0,
    show (fun i : Fin 1 => konst 0 i + 1 * -konst 1 i / npNorm (konst 1)) = konst (-1) by
      rw [euler_substep_down]; exact congrArg konst (by norm_num),
    show (fun i : Fin 1 => (konst 0 i + 1 * -konst 1 i / npNorm (konst 1)) - konst 0 i)
        = konst (-1) by
      rw [euler_substep_down_arg]; exact congrArg konst (by norm_num),
    taylorB_neg]
  rw [eulerLoop_succ_reached hr1]
  rfl

/-- Witness for the amended C8: a constant-gradient predictor phase reaches
its target and performs exactly one endpoint evaluation, Hessian update and
DWI update, then runs the corrector. -/
theorem predictor_endpoint_effects_witness :
    (step ctxPredB 5).converged = false ∧
    (step ctxPredB 5).endpointEvals = 1 ∧
    (step ctxPredB 5).endpointHessUpdates = 1 ∧
    (step ctxPredB 5).endpointDwiUpdates = 1 ∧
    (∃ c, (step ctxPredB 5).dwiSample = some
      ⟨c, ctxPredB.calcEnergy c, ctxPredB.calcGrad c,
        ctxPredB.mw_H + ctxPredB.hessUpd ctxPredB.mw_H
          (fun i => c i - ctxPredB.irc_last_mw_coords i)
          (fun i => ctxPredB.calcGrad c i - ctxPredB.irc_last_mw_gradient i)⟩) ∧
    (step ctxPredB 5).corrRes = some (corrector_step
      ⟨ctxPredB.m_sqrt, ctxPredB.dwiGradAfter, ctxPredB.step_length⟩
      ctxPredB.mw_coords 5) := by
  have heul : eulerLoop ctxPredB.m_sqrt (ctxPredB.calcGrad ctxPredB.mw_coords)
      ctxPredB.mw_H ctxPredB.step_length
      (euler_step_length ctxPredB.m_sqrt (ctxPredB.calcGrad ctxPredB.mw_coords)
        ctxPredB.step_length ctxPredB.max_pred_steps)
      ctxPredB.mw_coords ctxPredB.max_pred_steps ctxPredB.mw_coords
      (ctxPredB.calcGrad ctxPredB.mw_coords) []
      = .reached (konst (-1)) (konst 1) [konst 0, konst (-1)] := by
    show eulerLoop (konst 1) (konst 1) (0 : Matrix (Fin 1) (Fin 1) ℝ) 1
      (euler_step_length (konst 1) (konst 1) 1 2) (konst 0) 2 (konst 0) (konst 1) [] = _
    rw [hstepB]
    exact eulerB_run
  have hconv : (step ctxPredB 5).converged = false := by
    unfold step
    simp only [heul]
    rfl
  obtain ⟨h1, h2, h3, h4, h5⟩ := predictor_endpoint_effects ctxPredB 5 hconv
  exact ⟨hconv, h1, h2, h3, h4, h5⟩

/-- Witness for C9: with interval `2` at cycle `4` the dispatch picks the
exact Hessian. -/
theorem hessian_recalc_dispatch_witness :
    predictor_hessian 4 (some 2) (!![3] : Matrix (Fin 1) (Fin 1) ℝ) !![7]
      (fun _ _ _ => !![0]) (konst 1) (konst 0) (konst 1) (konst 0) = .exact !![7] :=
  (hessian_recalc_dispatch 4 2 !![3] !![7] (fun _ _ _ => !![0]) (konst 1) (konst 0)
    (konst 1) (konst 0) (by norm_num) (by norm_num)).1 ⟨2, by norm_num, by norm_num⟩

end

end PysisEulerPC
